import Mathlib

/-!
# Push-button driver (pb.c, pb.h, pb_config.h)

A shallow embedding of the driver: the global `pb_handle` becomes an explicit
state value that every function takes and returns, the GPIO input register
becomes a per-tick vector of levels, and the user callback becomes a list of
recorded invocations.
-/

namespace PB

/-! ## Configuration (pb_config.h, pb.h) -/

/-- Event type `pb_evn_t` of pb.h, a `uint32_t`, kept as a natural number. -/
abbrev pb_evn_t := Nat

/-- Long-press flag, bit 31 of an event. -/
@[reducible, simp] def PB_EVN_LONG_MASK : Nat := 0x80000000

/-- Scan period in milliseconds. -/
@[reducible, simp] def PB_INTERVAL_MS : Nat := 10

/-- Shortest press, in milliseconds, reported as a short press. -/
@[reducible, simp] def PB_SHORT_TIME_MS : Nat := 50

/-- Shortest press, in milliseconds, reported as a long press. -/
@[reducible, simp] def PB_LONG_TIME_MS : Nat := 1000

/-- Number of slots of the circular event buffer. -/
@[reducible, simp] def PB_EVN_QUEUE_SIZE : Nat := 4

/-- Number of configured buttons, the bound of the scan loop. -/
@[reducible, simp] def PB_CONFIG_COUNT : Nat := 3

/-- Modelled from the spec: the macro `PB_KEY_COUNT` sizing `cnt[]` in pb.h is
defined nowhere in the sources; the spec keeps one duration counter per button,
so it is the number of configured buttons. -/
@[reducible, simp] def PB_KEY_COUNT : Nat := 3

/-- The null function pointer. -/
@[reducible, simp] def NULL : Nat := 0

/-! ## Fixed-size C arrays -/

/-- Read of `a[i]` for an array of `n` cells. Indices outside the array are
undefined behaviour in C; the model reads 0 there. -/
def arr_get {n : Nat} (a : Fin n → Nat) (i : Nat) : Nat :=
  if h : i < n then a ⟨i, h⟩ else 0

/-- Write `a[i] = v` for an array of `n` cells. Indices outside the array are
undefined behaviour in C; the model leaves the array unchanged there. -/
def arr_set {n : Nat} (a : Fin n → Nat) (i : Nat) (v : Nat) : Fin n → Nat :=
  fun j => if j.val = i then v else a j

/-! ## Driver state (pb.h, `pb_t`) -/

/-- The handle `pb_t`. The `config` pointer is never read or written by pb.c
and is left out. `callback` is the function pointer (0 is NULL), `cnt` holds
the `uint16_t` press counters, `evn` the circular buffer, `evn_head` and
`evn_tail` the `uint32_t` indices. -/
@[ext] structure pb_t where
  callback : Nat
  cnt : Fin PB_KEY_COUNT → Nat
  evn : Fin PB_EVN_QUEUE_SIZE → pb_evn_t
  evn_head : Nat
  evn_tail : Nat

/-- Levels read from the input register during one tick: `lv i = true` when
`pb_config[i].gpio->IDR & pb_config[i].pin` is non-zero (logic high, button
released), `false` when the button is pressed. -/
abbrev Levels := Nat → Bool

/-! ## The driver functions (pb.c) -/

/-- The function `pb_clear`: indices to zero, buffer and counters zeroed. -/
def pb_clear (s : pb_t) : pb_t :=
  { s with evn_head := 0, evn_tail := 0, evn := fun _ => 0, cnt := fun _ => 0 }

/-- The function `pb_init`, without the timer set-up: stores the callback and
clears the state. -/
def pb_init (callback : Nat) (s : pb_t) : pb_t :=
  pb_clear { s with callback := callback }

/-- Result of one `pb_loop` call: the state afterwards, the returned event and
the callback invocations made, each as its two arguments `(is_long, key_mask)`. -/
structure pb_loop_result where
  state : pb_t
  event : pb_evn_t
  calls : List (Bool × pb_evn_t)

/-- The function `pb_loop`. The first callback argument is a C `bool`, so it is
true exactly when `event & PB_EVN_LONG_MASK` is non-zero; `~PB_EVN_LONG_MASK`
is the 32-bit complement. The callback is an observer: it does not touch the
driver state. -/
def pb_loop (s : pb_t) : pb_loop_result :=
  if s.evn_head ≠ s.evn_tail then
    let event := arr_get s.evn s.evn_tail
    let s1 := { s with evn_tail := (s.evn_tail + 1) % 4294967296 % PB_EVN_QUEUE_SIZE }
    if s.callback ≠ NULL then
      { state := s1, event := event,
        calls := [(decide (event &&& PB_EVN_LONG_MASK ≠ 0),
                   event &&& (PB_EVN_LONG_MASK ^^^ 0xFFFFFFFF))] }
    else
      { state := s1, event := event, calls := [] }
  else
    { state := s, event := 0, calls := [] }

/-- The function `pb_evn_add`: store at head unless the queue is full. -/
def pb_evn_add (s : pb_t) (event : pb_evn_t) : pb_t :=
  let next_head := (s.evn_head + 1) % 4294967296 % PB_EVN_QUEUE_SIZE
  if next_head ≠ s.evn_tail then
    { s with evn := arr_set s.evn s.evn_head event, evn_head := next_head }
  else
    s

/-- Body of the scan loop of `pb_tim_cb` for button `i`. The second component
is a ghost log of the calls `pb_evn_add(e)` made so far in this tick, each
recorded as `(i, e)`. For `i < 3` the value `(1 << i) | PB_EVN_LONG_MASK` fits
in 32 bits. -/
def pb_tim_cb_step (lv : Levels) (st : pb_t × List (Nat × pb_evn_t)) (i : Nat) :
    pb_t × List (Nat × pb_evn_t) :=
  if lv i then
    let st1 : pb_t × List (Nat × pb_evn_t) :=
      if arr_get st.1.cnt i ≥ PB_LONG_TIME_MS / PB_INTERVAL_MS then
        (pb_evn_add st.1 ((1 <<< i) ||| PB_EVN_LONG_MASK),
          st.2 ++ [(i, (1 <<< i) ||| PB_EVN_LONG_MASK)])
      else if arr_get st.1.cnt i ≥ PB_SHORT_TIME_MS / PB_INTERVAL_MS then
        (pb_evn_add st.1 (1 <<< i), st.2 ++ [(i, 1 <<< i)])
      else
        st
    ({ st1.1 with cnt := arr_set st1.1.cnt i 0 }, st1.2)
  else
    ({ st.1 with cnt := arr_set st.1.cnt i ((arr_get st.1.cnt i + 1) % 65536) }, st.2)

/-- The function `pb_tim_cb` with the ghost log of offered events. -/
def pb_tim_cb_log (lv : Levels) (s : pb_t) : pb_t × List (Nat × pb_evn_t) :=
  (List.range PB_CONFIG_COUNT).foldl (pb_tim_cb_step lv) (s, [])

/-- The function `pb_tim_cb`: one scan of all buttons. -/
def pb_tim_cb (lv : Levels) (s : pb_t) : pb_t :=
  (pb_tim_cb_log lv s).1

/-! ## Running the driver -/

/-- State after a sequence of ticks, one level vector per tick. -/
def pb_ticks : pb_t → List Levels → pb_t
  | s, [] => s
  | s, lv :: rest => pb_ticks (pb_tim_cb lv s) rest

/-- Every event offered to the queue during a sequence of ticks, in order. -/
def pb_ticks_log : pb_t → List Levels → List (Nat × pb_evn_t)
  | _, [] => []
  | s, lv :: rest => (pb_tim_cb_log lv s).2 ++ pb_ticks_log (pb_tim_cb lv s) rest

/-- Levels with button `i` pressed and every other button released. -/
def only_pressed (i : Nat) : Levels := fun j => decide (j ≠ i)

/-- Levels with every button released. -/
def all_released : Levels := fun _ => true

/-- The tick sequence of one press: button `i` held for `n` ticks while the
other buttons stay released, then one tick with every button released. -/
def press_release (i n : Nat) : List Levels :=
  List.replicate n (only_pressed i) ++ [all_released]

/-- The buffered events, oldest first: `evn[tail]`, `evn[(tail+1)%4]`, ... up
to but excluding `evn[head]`. -/
def content (s : pb_t) : List pb_evn_t :=
  (List.range ((s.evn_head + PB_EVN_QUEUE_SIZE - s.evn_tail) % PB_EVN_QUEUE_SIZE)).map
    (fun k => arr_get s.evn ((s.evn_tail + k) % PB_EVN_QUEUE_SIZE))

/-- A zeroed handle with no callback, as the C runtime leaves the global. -/
def pb_zero : pb_t :=
  { callback := NULL, cnt := fun _ => 0, evn := fun _ => 0, evn_head := 0, evn_tail := 0 }

/-- Indices within the buffer: the well-formed states of the queue. -/
def wf (s : pb_t) : Prop :=
  s.evn_head < PB_EVN_QUEUE_SIZE ∧ s.evn_tail < PB_EVN_QUEUE_SIZE

instance (s : pb_t) : Decidable (wf s) := by
  unfold wf; infer_instance

/-- Successive `pb_evn_add` calls for a list of logged offers. -/
def push_all (s : pb_t) (es : List (Nat × pb_evn_t)) : pb_t :=
  es.foldl (fun t p => pb_evn_add t p.2) s

/-- What the scan loop offers for button `i` given the counters before it. -/
def offer (lv : Levels) (c : Fin PB_KEY_COUNT → Nat) (i : Nat) : List (Nat × pb_evn_t) :=
  if lv i then
    if arr_get c i ≥ PB_LONG_TIME_MS / PB_INTERVAL_MS then [(i, (1 <<< i) ||| PB_EVN_LONG_MASK)]
    else if arr_get c i ≥ PB_SHORT_TIME_MS / PB_INTERVAL_MS then [(i, 1 <<< i)]
    else []
  else []

/-- Everything one scan offers to the queue, in loop order. -/
def tick_offers (lv : Levels) (c : Fin PB_KEY_COUNT → Nat) : List (Nat × pb_evn_t) :=
  offer lv c 0 ++ (offer lv c 1 ++ offer lv c 2)

/-- Counters after one tick, button by button. -/
def tick_cnt (lv : Levels) (c : Fin PB_KEY_COUNT → Nat) : Fin PB_KEY_COUNT → Nat :=
  fun j => if lv j.val then 0 else (c j + 1) % 65536

/-- A call made on the queue by the producer or the consumer. -/
inductive QOp where
  | add (e : pb_evn_t)
  | loop

/-- State after a sequence of queue calls. -/
def q_final : pb_t → List QOp → pb_t
  | s, [] => s
  | s, QOp.add e :: rest => q_final (pb_evn_add s e) rest
  | s, QOp.loop :: rest => q_final (pb_loop s).state rest

/-- Events accepted by `pb_evn_add` during a sequence of queue calls: those
offered while `(head + 1) % 4` differed from `tail`. -/
def q_accepted : pb_t → List QOp → List pb_evn_t
  | _, [] => []
  | s, QOp.add e :: rest =>
    if (s.evn_head + 1) % 4294967296 % PB_EVN_QUEUE_SIZE ≠ s.evn_tail then
      e :: q_accepted (pb_evn_add s e) rest
    else q_accepted (pb_evn_add s e) rest
  | s, QOp.loop :: rest => q_accepted (pb_loop s).state rest

/-- Values returned by `pb_loop` on non-empty queues during a sequence of
queue calls. -/
def q_returned : pb_t → List QOp → List pb_evn_t
  | _, [] => []
  | s, QOp.add e :: rest => q_returned (pb_evn_add s e) rest
  | s, QOp.loop :: rest =>
    if s.evn_head ≠ s.evn_tail then (pb_loop s).event :: q_returned (pb_loop s).state rest
    else q_returned (pb_loop s).state rest

/-- Values returned by `n` successive `pb_loop` calls. -/
def pb_loop_events : pb_t → Nat → List pb_evn_t
  | _, 0 => []
  | s, n + 1 => (pb_loop s).event :: pb_loop_events (pb_loop s).state n

/-- States reachable from a cleared handle by ticks and `pb_loop` calls. -/
inductive Reachable : pb_t → Prop where
  | clear (s : pb_t) : Reachable (pb_clear s)
  | tick (lv : Levels) (s : pb_t) : Reachable s → Reachable (pb_tim_cb lv s)
  | loop (s : pb_t) : Reachable s → Reachable (pb_loop s).state

/-- States reachable when `pb_evn_add` may also be called directly with any
event. -/
inductive ReachableQ : pb_t → Prop where
  | clear (s : pb_t) : ReachableQ (pb_clear s)
  | tick (lv : Levels) (s : pb_t) : ReachableQ s → ReachableQ (pb_tim_cb lv s)
  | add (e : pb_evn_t) (s : pb_t) : ReachableQ s → ReachableQ (pb_evn_add s e)
  | loop (s : pb_t) : ReachableQ s → ReachableQ (pb_loop s).state

/-- Lengths of the maximal runs of consecutive pressed readings of button `i`
in a sequence of ticks; `cur` is the length of the run in progress. -/
def pressed_runs (i : Nat) : List Levels → Nat → List Nat
  | [], cur => if cur = 0 then [] else [cur]
  | lv :: rest, cur =>
    if lv i then (if cur = 0 then pressed_runs i rest 0 else cur :: pressed_runs i rest 0)
    else pressed_runs i rest (cur + 1)

/-- A call made on the driver from outside: a timer tick with the levels it
reads, or a `pb_loop` call. -/
inductive Op where
  | tick (lv : Levels)
  | loop

/-- State after a sequence of driver calls. -/
def run_state : pb_t → List Op → pb_t
  | s, [] => s
  | s, Op.tick lv :: rest => run_state (pb_tim_cb lv s) rest
  | s, Op.loop :: rest => run_state (pb_loop s).state rest

/-- What the application observes during a sequence of driver calls: for each
`pb_loop` call, in order, the value returned and the callback calls made. -/
def run_out : pb_t → List Op → List (pb_evn_t × List (Bool × pb_evn_t))
  | _, [] => []
  | s, Op.tick lv :: rest => run_out (pb_tim_cb lv s) rest
  | s, Op.loop :: rest => ((pb_loop s).event, (pb_loop s).calls) :: run_out (pb_loop s).state rest

/-- The level vectors of the ticks of a sequence of driver calls, in order. -/
def ticks_of : List Op → List Levels
  | [] => []
  | Op.tick lv :: rest => lv :: ticks_of rest
  | Op.loop :: rest => ticks_of rest

/-- History of button `i` over a sequence of driver calls: for each tick, in
order, its counter after the tick and the events the tick offered for it. -/
def run_trace (i : Nat) : pb_t → List Op → List (Nat × List (Nat × pb_evn_t))
  | _, [] => []
  | s, Op.tick lv :: rest =>
    (arr_get (pb_tim_cb lv s).cnt i, (pb_tim_cb_log lv s).2.filter (fun p => decide (p.1 = i)))
      :: run_trace i (pb_tim_cb lv s) rest
  | s, Op.loop :: rest => run_trace i (pb_loop s).state rest


/-- The timing macros of pb_config.h as a value, to speak of builds with
other settings than the shipped ones. -/
structure pb_timing where
  interval_ms : Nat
  short_time_ms : Nat
  long_time_ms : Nat

/-- The shipped settings of pb_config.h. -/
def pb_timing_shipped : pb_timing :=
  { interval_ms := PB_INTERVAL_MS, short_time_ms := PB_SHORT_TIME_MS,
    long_time_ms := PB_LONG_TIME_MS }

/-- Settings whose short threshold, 10 ticks, is above the long one, 5 ticks. -/
def timing_inverted : pb_timing :=
  { interval_ms := 10, short_time_ms := 100, long_time_ms := 50 }

/-- Settings with a zero tick interval. -/
def timing_zero_interval : pb_timing :=
  { interval_ms := 0, short_time_ms := 50, long_time_ms := 1000 }

/-- Body of the scan loop in a build with timing `t`: `pb_tim_cb_step` with the
two thresholds `long_time_ms / interval_ms` and `short_time_ms / interval_ms`.
The divisions are evaluated on a released reading only; with `interval_ms = 0`
they divide by zero, which is undefined in C, and the result is `none`. -/
def pb_tim_cb_step_with (t : pb_timing) (lv : Levels) (st : pb_t × List (Nat × pb_evn_t))
    (i : Nat) : Option (pb_t × List (Nat × pb_evn_t)) :=
  if lv i then
    if t.interval_ms = 0 then none
    else
      let st1 : pb_t × List (Nat × pb_evn_t) :=
        if arr_get st.1.cnt i ≥ t.long_time_ms / t.interval_ms then
          (pb_evn_add st.1 ((1 <<< i) ||| PB_EVN_LONG_MASK),
            st.2 ++ [(i, (1 <<< i) ||| PB_EVN_LONG_MASK)])
        else if arr_get st.1.cnt i ≥ t.short_time_ms / t.interval_ms then
          (pb_evn_add st.1 (1 <<< i), st.2 ++ [(i, 1 <<< i)])
        else
          st
      some ({ st1.1 with cnt := arr_set st1.1.cnt i 0 }, st1.2)
  else
    some ({ st.1 with cnt := arr_set st.1.cnt i ((arr_get st.1.cnt i + 1) % 65536) }, st.2)

/-- Scan of a list of button indices in a build with timing `t`, stopping at
the first undefined step. -/
def pb_scan_with (t : pb_timing) (lv : Levels) :
    List Nat → pb_t × List (Nat × pb_evn_t) → Option (pb_t × List (Nat × pb_evn_t))
  | [], st => some st
  | i :: rest, st =>
    match pb_tim_cb_step_with t lv st i with
    | none => none
    | some st1 => pb_scan_with t lv rest st1

/-- The function `pb_tim_cb`, with its log of offers, in a build with timing `t`. -/
def pb_tim_cb_with (t : pb_timing) (lv : Levels) (s : pb_t) :
    Option (pb_t × List (Nat × pb_evn_t)) :=
  pb_scan_with t lv (List.range PB_CONFIG_COUNT) (s, [])

/-- Ticks in a build with timing `t`: final state and every offer made, or
`none` when a tick is undefined. -/
def pb_ticks_with (t : pb_timing) :
    pb_t → List Levels → Option (pb_t × List (Nat × pb_evn_t))
  | s, [] => some (s, [])
  | s, lv :: rest =>
    match pb_tim_cb_with t lv s with
    | none => none
    | some r1 =>
      match pb_ticks_with t r1.1 rest with
      | none => none
      | some r2 => some (r2.1, r1.2 ++ r2.2)

/-- History of one button computed from its own readings alone: starting with
counter `c` and reading the levels `bs` (true is released), the counter after
each tick and the event offered on it. -/
def button_trace (i : Nat) : Nat → List Bool → List (Nat × List (Nat × pb_evn_t))
  | _, [] => []
  | c, b :: bs =>
    ((if b then 0 else (c + 1) % 65536),
      (if b then
        (if PB_LONG_TIME_MS / PB_INTERVAL_MS ≤ c then [(i, (1 <<< i) ||| PB_EVN_LONG_MASK)]
         else if PB_SHORT_TIME_MS / PB_INTERVAL_MS ≤ c then [(i, 1 <<< i)]
         else [])
       else []))
    :: button_trace i (if b then 0 else (c + 1) % 65536) bs

/-- The event a release of button `i` offers when its counter `c` is at least
the short threshold. -/
def release_evn (c i : Nat) : pb_evn_t :=
  if PB_LONG_TIME_MS / PB_INTERVAL_MS ≤ c then (1 <<< i) ||| PB_EVN_LONG_MASK else 1 <<< i


/-- Two short presses of button 2, then all three buttons held for 5 ticks. -/
def two_presses_then_all_held : List Levels :=
  press_release 2 6 ++ press_release 2 6 ++ List.replicate 5 (fun _ => false)

/-- The state those ticks lead to from a cleared handle: two events buffered
and every counter at 5. -/
def one_slot_left : pb_t :=
  pb_ticks (pb_clear pb_zero) two_presses_then_all_held


/-! ## Arrays -/

theorem arr_get_set {n : Nat} (a : Fin n → Nat) (i j v : Nat) :
    arr_get (arr_set a i v) j = if j = i ∧ j < n then v else arr_get a j := by
  unfold arr_get arr_set
  by_cases h : j < n <;> by_cases h2 : j = i
  · subst h2; simp [h]
  · simp [h, h2]
  · subst h2; simp [h]
  · simp [h, h2]

theorem arr_get_set_same {n : Nat} (a : Fin n → Nat) (i v : Nat) (h : i < n) :
    arr_get (arr_set a i v) i = v := by
  simp [arr_get_set, h]

theorem arr_get_set_ne {n : Nat} (a : Fin n → Nat) (i j v : Nat) (h : j ≠ i) :
    arr_get (arr_set a i v) j = arr_get a j := by
  simp [arr_get_set, h]

/-! ## The queue -/

theorem wf_evn_add (s : pb_t) (e : pb_evn_t) (h : wf s) : wf (pb_evn_add s e) := by
  unfold wf pb_evn_add at *
  dsimp only
  split
  · exact ⟨Nat.mod_lt _ (by decide), h.2⟩
  · exact h

theorem wf_loop (s : pb_t) (h : wf s) : wf (pb_loop s).state := by
  unfold wf pb_loop at *
  dsimp only
  split
  · split <;> exact ⟨h.1, Nat.mod_lt _ (by decide)⟩
  · exact h

theorem wf_clear (s : pb_t) : wf (pb_clear s) := by
  unfold wf pb_clear; exact ⟨Nat.zero_lt_succ _, Nat.zero_lt_succ _⟩

theorem content_evn_add (s : pb_t) (e : pb_evn_t) (h : wf s) :
    content (pb_evn_add s e) =
      if (content s).length < 3 then content s ++ [e] else content s := by
  obtain ⟨cb, cnt, evn, hd, tl⟩ := s
  obtain ⟨h1, h2⟩ := h
  simp only [PB_EVN_QUEUE_SIZE] at h1 h2
  interval_cases hd <;> interval_cases tl <;>
    simp [content, pb_evn_add, arr_get, arr_set, List.range_succ]

theorem content_loop (s : pb_t) (h : wf s) (hne : s.evn_head ≠ s.evn_tail) :
    content s = (pb_loop s).event :: content (pb_loop s).state := by
  obtain ⟨cb, cnt, evn, hd, tl⟩ := s
  obtain ⟨h1, h2⟩ := h
  simp only [PB_EVN_QUEUE_SIZE] at h1 h2
  interval_cases hd <;> interval_cases tl <;>
    first
    | exact absurd rfl hne
    | (by_cases hcb : cb = 0 <;>
        simp [content, pb_loop, arr_get, List.range_succ, hcb])

theorem content_empty_iff (s : pb_t) (h : wf s) :
    content s = [] ↔ s.evn_head = s.evn_tail := by
  obtain ⟨cb, cnt, evn, hd, tl⟩ := s
  obtain ⟨h1, h2⟩ := h
  simp only [PB_EVN_QUEUE_SIZE] at h1 h2
  interval_cases hd <;> interval_cases tl <;> simp [content, List.range_succ]

theorem content_length_le (s : pb_t) : (content s).length ≤ 3 := by
  unfold content
  simp only [List.length_map, List.length_range]
  have := Nat.mod_lt (s.evn_head + 4 - s.evn_tail) (show 0 < 4 by decide)
  simp only [PB_EVN_QUEUE_SIZE]
  omega

/-! ## One tick, factored into counters and queue insertions -/

theorem pb_evn_add_cnt (s : pb_t) (c : Fin PB_KEY_COUNT → Nat) (e : pb_evn_t) :
    pb_evn_add { s with cnt := c } e = { pb_evn_add s e with cnt := c } := by
  unfold pb_evn_add
  dsimp only
  split <;> rfl

theorem pb_evn_add_cnt_eq (s : pb_t) (e : pb_evn_t) : (pb_evn_add s e).cnt = s.cnt := by
  unfold pb_evn_add
  dsimp only
  split <;> rfl

theorem pb_evn_add_callback (s : pb_t) (e : pb_evn_t) :
    (pb_evn_add s e).callback = s.callback := by
  unfold pb_evn_add
  dsimp only
  split <;> rfl

theorem pb_evn_add_tail (s : pb_t) (e : pb_evn_t) :
    (pb_evn_add s e).evn_tail = s.evn_tail := by
  unfold pb_evn_add
  dsimp only
  split <;> rfl

theorem push_all_nil (s : pb_t) : push_all s [] = s := rfl

theorem push_all_cons (s : pb_t) (p : Nat × pb_evn_t) (es : List (Nat × pb_evn_t)) :
    push_all s (p :: es) = push_all (pb_evn_add s p.2) es := rfl

theorem push_all_append (s : pb_t) (es fs : List (Nat × pb_evn_t)) :
    push_all s (es ++ fs) = push_all (push_all s es) fs := by
  unfold push_all
  rw [List.foldl_append]

theorem push_all_cnt (s : pb_t) (c : Fin PB_KEY_COUNT → Nat) (es : List (Nat × pb_evn_t)) :
    push_all { s with cnt := c } es = { push_all s es with cnt := c } := by
  induction es generalizing s with
  | nil => rfl
  | cons p es ih => rw [push_all_cons, push_all_cons, pb_evn_add_cnt, ih]

theorem push_all_cnt_eq (s : pb_t) (es : List (Nat × pb_evn_t)) :
    (push_all s es).cnt = s.cnt := by
  induction es generalizing s with
  | nil => rfl
  | cons p es ih => rw [push_all_cons, ih, pb_evn_add_cnt_eq]

theorem push_all_callback (s : pb_t) (es : List (Nat × pb_evn_t)) :
    (push_all s es).callback = s.callback := by
  induction es generalizing s with
  | nil => rfl
  | cons p es ih => rw [push_all_cons, ih, pb_evn_add_callback]

theorem push_all_tail (s : pb_t) (es : List (Nat × pb_evn_t)) :
    (push_all s es).evn_tail = s.evn_tail := by
  induction es generalizing s with
  | nil => rfl
  | cons p es ih => rw [push_all_cons, ih, pb_evn_add_tail]

theorem wf_push_all (s : pb_t) (es : List (Nat × pb_evn_t)) (h : wf s) :
    wf (push_all s es) := by
  induction es generalizing s with
  | nil => exact h
  | cons p es ih => rw [push_all_cons]; exact ih _ (wf_evn_add s p.2 h)

/-- One iteration of the scan loop: the queue receives the offer of button
`i`, and counter `i` is reset or incremented. -/
theorem pb_tim_cb_step_eq (lv : Levels) (s : pb_t) (log : List (Nat × pb_evn_t)) (i : Nat) :
    pb_tim_cb_step lv (s, log) i =
      ({ push_all s (offer lv s.cnt i) with
          cnt := arr_set s.cnt i (if lv i then 0 else (arr_get s.cnt i + 1) % 65536) },
        log ++ offer lv s.cnt i) := by
  unfold pb_tim_cb_step offer
  by_cases hl : lv i = true
  · by_cases h1 : arr_get s.cnt i ≥ PB_LONG_TIME_MS / PB_INTERVAL_MS
    · simp only [hl, h1, if_true, push_all_cons, push_all_nil, pb_evn_add_cnt_eq]
    · by_cases h2 : arr_get s.cnt i ≥ PB_SHORT_TIME_MS / PB_INTERVAL_MS
      · simp only [hl, h1, h2, if_true, if_false, push_all_cons, push_all_nil,
          pb_evn_add_cnt_eq]
      · simp only [hl, h1, h2, if_true, if_false, push_all_nil, List.append_nil]
  · simp only [hl, if_false, push_all_nil, List.append_nil, Bool.false_eq_true]

theorem offer_arr_set (lv : Levels) (c : Fin PB_KEY_COUNT → Nat) (i j v : Nat) (h : j ≠ i) :
    offer lv (arr_set c i v) j = offer lv c j := by
  unfold offer
  rw [arr_get_set_ne _ _ _ _ h]

/-- One tick: the queue receives the offers of buttons 0, 1, 2 in that order,
and every counter is reset or incremented according to its own level. -/
theorem pb_tim_cb_log_eq (lv : Levels) (s : pb_t) :
    pb_tim_cb_log lv s =
      ({ push_all s (tick_offers lv s.cnt) with cnt := tick_cnt lv s.cnt },
        tick_offers lv s.cnt) := by
  unfold pb_tim_cb_log
  have hr : List.range PB_CONFIG_COUNT = [0, 1, 2] := rfl
  rw [hr]
  simp only [List.foldl_cons, List.foldl_nil]
  rw [pb_tim_cb_step_eq, pb_tim_cb_step_eq, pb_tim_cb_step_eq]
  simp only [push_all_cnt, push_all_cnt_eq, List.nil_append, List.append_assoc]
  rw [offer_arr_set _ _ _ _ _ (by decide), offer_arr_set _ _ _ _ _ (by decide),
    offer_arr_set _ _ _ _ _ (by decide)]
  rw [arr_get_set_ne _ _ _ _ (by decide), arr_get_set_ne _ _ _ _ (by decide),
    arr_get_set_ne _ _ _ _ (by decide)]
  unfold tick_offers
  simp only [push_all_append]
  refine Prod.ext ?_ rfl
  refine pb_t.ext rfl ?_ rfl rfl rfl
  funext j
  unfold tick_cnt arr_set arr_get
  fin_cases j <;> simp

theorem pb_tim_cb_eq (lv : Levels) (s : pb_t) :
    pb_tim_cb lv s = { push_all s (tick_offers lv s.cnt) with cnt := tick_cnt lv s.cnt } := by
  unfold pb_tim_cb
  rw [pb_tim_cb_log_eq]

theorem pb_tim_cb_log_snd (lv : Levels) (s : pb_t) :
    (pb_tim_cb_log lv s).2 = tick_offers lv s.cnt := by
  rw [pb_tim_cb_log_eq]

theorem wf_tim_cb (lv : Levels) (s : pb_t) (h : wf s) : wf (pb_tim_cb lv s) := by
  rw [pb_tim_cb_eq]
  exact wf_push_all s _ h

/-! ## A single press from a cleared handle -/

theorem pb_ticks_append (s : pb_t) (a b : List Levels) :
    pb_ticks s (a ++ b) = pb_ticks (pb_ticks s a) b := by
  induction a generalizing s with
  | nil => rfl
  | cons lv a ih => exact ih _

theorem pb_ticks_log_append (s : pb_t) (a b : List Levels) :
    pb_ticks_log s (a ++ b) = pb_ticks_log s a ++ pb_ticks_log (pb_ticks s a) b := by
  induction a generalizing s with
  | nil => rfl
  | cons lv a ih =>
    show (pb_tim_cb_log lv s).2 ++ pb_ticks_log (pb_tim_cb lv s) (a ++ b) = _
    rw [ih]
    simp only [pb_ticks_log, pb_ticks, List.append_assoc]

/-- While button `i` alone is held and the other counters are zero, a tick
offers nothing to the queue. -/
theorem tick_offers_hold (c : Fin PB_KEY_COUNT → Nat) (i : Nat)
    (h : ∀ j : Fin PB_KEY_COUNT, j.val ≠ i → c j = 0) :
    tick_offers (only_pressed i) c = [] := by
  have h0 := h 0
  have h1 := h 1
  have h2 := h 2
  simp only [tick_offers, offer, only_pressed, arr_get]
  by_cases e0 : i = 0
  · subst e0; simp [h1, h2]
  · by_cases e1 : i = 1
    · subst e1; simp [h0, h2]
    · by_cases e2 : i = 2
      · subst e2; simp [h0, h1]
      · have a0 : (0 : Fin PB_KEY_COUNT).val ≠ i := fun e => e0 e.symm
        have a1 : (1 : Fin PB_KEY_COUNT).val ≠ i := fun e => e1 e.symm
        have a2 : (2 : Fin PB_KEY_COUNT).val ≠ i := fun e => e2 e.symm
        simp [h0 a0, h1 a1, h2 a2]

/-- Holding button `i` alone for `n` ticks adds `n` to its counter modulo
65536, keeps the other counters at zero and offers nothing to the queue. -/
theorem hold_ticks (i n : Nat) (s : pb_t)
    (h : ∀ j : Fin PB_KEY_COUNT, j.val ≠ i → s.cnt j = 0)
    (hc : ∀ j : Fin PB_KEY_COUNT, s.cnt j < 65536) :
    pb_ticks s (List.replicate n (only_pressed i)) =
        { s with cnt := fun j => if j.val = i then (s.cnt j + n) % 65536 else 0 } ∧
      pb_ticks_log s (List.replicate n (only_pressed i)) = [] := by
  induction n generalizing s with
  | zero =>
    refine ⟨?_, rfl⟩
    refine pb_t.ext rfl ?_ rfl rfl rfl
    funext j
    show s.cnt j = _
    by_cases e : j.val = i
    · simp [e, Nat.mod_eq_of_lt (hc j)]
    · simp [e, h j e]
  | succ n ih =>
    have hstep : pb_tim_cb (only_pressed i) s =
        { s with cnt := tick_cnt (only_pressed i) s.cnt } := by
      rw [pb_tim_cb_eq, tick_offers_hold _ _ h, push_all_nil]
    have h1 : ∀ j : Fin PB_KEY_COUNT, j.val ≠ i →
        (pb_tim_cb (only_pressed i) s).cnt j = 0 := by
      intro j hj
      rw [hstep]
      simp [tick_cnt, only_pressed, hj]
    have h2 : ∀ j : Fin PB_KEY_COUNT, (pb_tim_cb (only_pressed i) s).cnt j < 65536 := by
      intro j
      rw [hstep]
      simp only [tick_cnt]
      split
      · decide
      · exact Nat.mod_lt _ (by decide)
    obtain ⟨ih1, ih2⟩ := ih (pb_tim_cb (only_pressed i) s) h1 h2
    refine ⟨?_, ?_⟩
    · rw [List.replicate_succ, pb_ticks, ih1, hstep]
      refine pb_t.ext rfl ?_ rfl rfl rfl
      funext j
      by_cases e : j.val = i
      · simp [e, tick_cnt, only_pressed]
        omega
      · simp [e]
    · rw [List.replicate_succ, pb_ticks_log, ih2, pb_tim_cb_log_snd, tick_offers_hold _ _ h]
      rfl

/-- Releasing every button when only counter `i` is non-zero: the queue gets
the offer of button `i` alone and every counter returns to zero. -/
theorem release_after_hold (s : pb_t) (i : Nat) (hi : i < PB_CONFIG_COUNT)
    (h : ∀ j : Fin PB_KEY_COUNT, j.val ≠ i → s.cnt j = 0) :
    pb_tim_cb_log all_released s =
      ({ push_all s (offer all_released s.cnt i) with cnt := fun _ => 0 },
        offer all_released s.cnt i) := by
  have h0 := h 0
  have h1 := h 1
  have h2 := h 2
  have hoff : tick_offers all_released s.cnt = offer all_released s.cnt i := by
    simp only [PB_CONFIG_COUNT] at hi
    interval_cases i
    · simp [tick_offers, offer, arr_get, all_released, h1, h2]
    · simp [tick_offers, offer, arr_get, all_released, h0, h2]
    · simp [tick_offers, offer, arr_get, all_released, h0, h1]
  rw [pb_tim_cb_log_eq, hoff]
  refine Prod.ext ?_ rfl
  refine pb_t.ext rfl ?_ rfl rfl rfl
  funext j
  simp [tick_cnt, all_released]

/-- Bit-level facts on the two events of a button `i < 3`. -/
theorem evn_bits (i : Nat) (hi : i < PB_CONFIG_COUNT) :
    (1 <<< i) &&& PB_EVN_LONG_MASK = 0 ∧
    (1 <<< i) &&& (PB_EVN_LONG_MASK ^^^ 0xFFFFFFFF) = 1 <<< i ∧
    ((1 <<< i) ||| PB_EVN_LONG_MASK) &&& PB_EVN_LONG_MASK ≠ 0 ∧
    ((1 <<< i) ||| PB_EVN_LONG_MASK) &&& (PB_EVN_LONG_MASK ^^^ 0xFFFFFFFF) = 1 <<< i ∧
    1 <<< i ≠ 0 ∧ (1 <<< i) ||| PB_EVN_LONG_MASK ≠ 0 ∧
    (1 <<< i) ||| PB_EVN_LONG_MASK ≠ 1 <<< i := by
  simp only [PB_CONFIG_COUNT] at hi
  interval_cases i <;> decide

/-- A whole press from a cleared handle, of any length: the queue receives
what the release tick offers for a counter equal to the hold length modulo
65536, and nothing else. -/
theorem press_release_run_mod (s0 : pb_t) (i n : Nat) (hi : i < PB_CONFIG_COUNT) :
    pb_ticks (pb_clear s0) (press_release i n) =
        { push_all (pb_clear s0)
            (offer all_released (fun j => if j.val = i then n % 65536 else 0) i) with
          cnt := fun _ => 0 } ∧
      pb_ticks_log (pb_clear s0) (press_release i n) =
        offer all_released (fun j => if j.val = i then n % 65536 else 0) i := by
  have hz : ∀ j : Fin PB_KEY_COUNT, j.val ≠ i → (pb_clear s0).cnt j = 0 := fun _ _ => rfl
  have hb : ∀ j : Fin PB_KEY_COUNT, (pb_clear s0).cnt j < 65536 := fun _ => by
    show 0 < 65536
    decide
  obtain ⟨e1, e2⟩ := hold_ticks i n (pb_clear s0) hz hb
  have hcnt : (fun j : Fin PB_KEY_COUNT =>
      if j.val = i then ((pb_clear s0).cnt j + n) % 65536 else 0) =
      fun j => if j.val = i then n % 65536 else 0 := by
    funext j
    show (if j.val = i then (0 + n) % 65536 else 0) = _
    rw [Nat.zero_add]
  rw [hcnt] at e1
  have hrel := release_after_hold
    { pb_clear s0 with cnt := fun j => if j.val = i then n % 65536 else 0 } i hi
    (fun j hj => by simp [hj])
  unfold press_release
  rw [pb_ticks_append, pb_ticks_log_append, e1, e2]
  simp only [pb_ticks, pb_ticks_log, pb_tim_cb, hrel, List.nil_append, List.append_nil]
  refine ⟨?_, trivial⟩
  rw [push_all_cnt]

/-- A whole press from a cleared handle, shorter than 65536 ticks. -/
theorem press_release_run (s0 : pb_t) (i n : Nat) (hi : i < PB_CONFIG_COUNT) (hn : n < 65536) :
    pb_ticks (pb_clear s0) (press_release i n) =
        { push_all (pb_clear s0)
            (offer all_released (fun j => if j.val = i then n else 0) i) with
          cnt := fun _ => 0 } ∧
      pb_ticks_log (pb_clear s0) (press_release i n) =
        offer all_released (fun j => if j.val = i then n else 0) i := by
  have h := press_release_run_mod s0 i n hi
  rw [Nat.mod_eq_of_lt hn] at h
  exact h

theorem arr_get_hold (i n : Nat) (hi : i < PB_CONFIG_COUNT) :
    arr_get (fun j : Fin PB_KEY_COUNT => if j.val = i then n else 0) i = n := by
  unfold arr_get
  simp only [PB_CONFIG_COUNT] at hi
  simp [hi]

/-- One event pushed on a cleared handle: it is the whole content, and the
next `pb_loop` returns it, dispatches it and empties the queue. -/
theorem single_event (s0 : pb_t) (e : pb_evn_t) :
    content { pb_evn_add (pb_clear s0) e with cnt := fun _ => 0 } = [e] ∧
    (pb_loop { pb_evn_add (pb_clear s0) e with cnt := fun _ => 0 }).event = e ∧
    (pb_loop { pb_evn_add (pb_clear s0) e with cnt := fun _ => 0 }).calls =
      (if s0.callback ≠ NULL then
        [(decide (e &&& PB_EVN_LONG_MASK ≠ 0), e &&& (PB_EVN_LONG_MASK ^^^ 0xFFFFFFFF))]
       else []) ∧
    content (pb_loop { pb_evn_add (pb_clear s0) e with cnt := fun _ => 0 }).state = [] := by
  by_cases hcb : s0.callback = 0 <;>
    simp [content, pb_loop, pb_evn_add, pb_clear, arr_get, arr_set, List.range_succ, hcb]

theorem offer_short (i n : Nat) (hi : i < PB_CONFIG_COUNT) (h5 : 5 ≤ n) (h100 : n < 100) :
    offer all_released (fun j : Fin PB_KEY_COUNT => if j.val = i then n else 0) i =
      [(i, 1 <<< i)] := by
  unfold offer
  rw [arr_get_hold i n hi]
  have a : ¬ n ≥ PB_LONG_TIME_MS / PB_INTERVAL_MS := Nat.not_le.mpr h100
  have b : n ≥ PB_SHORT_TIME_MS / PB_INTERVAL_MS := h5
  simp only [all_released, a, b, if_true, if_false]

theorem offer_long (i n : Nat) (hi : i < PB_CONFIG_COUNT) (h100 : 100 ≤ n) :
    offer all_released (fun j : Fin PB_KEY_COUNT => if j.val = i then n else 0) i =
      [(i, (1 <<< i) ||| PB_EVN_LONG_MASK)] := by
  unfold offer
  rw [arr_get_hold i n hi]
  have a : n ≥ PB_LONG_TIME_MS / PB_INTERVAL_MS := h100
  simp only [all_released, a, if_true]

theorem offer_none (i n : Nat) (hi : i < PB_CONFIG_COUNT) (h5 : n < 5) :
    offer all_released (fun j : Fin PB_KEY_COUNT => if j.val = i then n else 0) i = [] := by
  unfold offer
  rw [arr_get_hold i n hi]
  have a : ¬ n ≥ PB_LONG_TIME_MS / PB_INTERVAL_MS :=
    Nat.not_le.mpr (Nat.lt_of_lt_of_le h5 (by decide))
  have b : ¬ n ≥ PB_SHORT_TIME_MS / PB_INTERVAL_MS := Nat.not_le.mpr h5
  simp only [all_released, a, b, if_true, if_false]

/-! ## What a tick offers, entry by entry -/

theorem mem_offer (lv : Levels) (c : Fin PB_KEY_COUNT → Nat) (j : Nat) (p : Nat × pb_evn_t)
    (h : p ∈ offer lv c j) :
    p.1 = j ∧ lv j = true ∧
      ((PB_LONG_TIME_MS / PB_INTERVAL_MS ≤ arr_get c j ∧ p.2 = (1 <<< j) ||| PB_EVN_LONG_MASK) ∨
       (PB_SHORT_TIME_MS / PB_INTERVAL_MS ≤ arr_get c j ∧
         arr_get c j < PB_LONG_TIME_MS / PB_INTERVAL_MS ∧ p.2 = 1 <<< j)) := by
  unfold offer at h
  by_cases hl : lv j = true
  · by_cases h1 : arr_get c j ≥ PB_LONG_TIME_MS / PB_INTERVAL_MS
    · rw [if_pos hl, if_pos h1, List.mem_singleton] at h
      subst h
      exact ⟨rfl, hl, Or.inl ⟨h1, rfl⟩⟩
    · by_cases h2 : arr_get c j ≥ PB_SHORT_TIME_MS / PB_INTERVAL_MS
      · rw [if_pos hl, if_neg h1, if_pos h2, List.mem_singleton] at h
        subst h
        exact ⟨rfl, hl, Or.inr ⟨h2, Nat.not_le.mp h1, rfl⟩⟩
      · rw [if_pos hl, if_neg h1, if_neg h2] at h
        exact absurd h (List.not_mem_nil _)
  · rw [if_neg hl] at h
    exact absurd h (List.not_mem_nil _)

theorem mem_tick_offers (lv : Levels) (c : Fin PB_KEY_COUNT → Nat) (p : Nat × pb_evn_t)
    (h : p ∈ tick_offers lv c) : p.1 < PB_CONFIG_COUNT ∧ p ∈ offer lv c p.1 := by
  unfold tick_offers at h
  simp only [List.mem_append] at h
  rcases h with h | h | h
  · have e := (mem_offer lv c 0 p h).1
    rw [e]; exact ⟨by decide, h⟩
  · have e := (mem_offer lv c 1 p h).1
    rw [e]; exact ⟨by decide, h⟩
  · have e := (mem_offer lv c 2 p h).1
    rw [e]; exact ⟨by decide, h⟩

/-- Counter `i` after a tick depends on its own level and value only. -/
theorem cnt_tim_cb (lv : Levels) (s : pb_t) (i : Nat) (hi : i < PB_CONFIG_COUNT) :
    arr_get (pb_tim_cb lv s).cnt i =
      if lv i then 0 else (arr_get s.cnt i + 1) % 65536 := by
  rw [pb_tim_cb_eq]
  simp only [PB_CONFIG_COUNT] at hi
  simp [arr_get, tick_cnt, hi]

/-- Below 65535 a pressed tick adds exactly one to the counter. -/
theorem cnt_tim_cb_pressed (lv : Levels) (s : pb_t) (i : Nat) (hi : i < PB_CONFIG_COUNT)
    (hl : lv i = false) (hc : arr_get s.cnt i < 65535) :
    arr_get (pb_tim_cb lv s).cnt i = arr_get s.cnt i + 1 := by
  rw [cnt_tim_cb lv s i hi, hl]
  simp only [Bool.false_eq_true, if_false]
  exact Nat.mod_eq_of_lt (Nat.succ_lt_succ hc)

/-- Bit `i` of the button mask of an event of button `j` is set exactly when
`j = i`. -/
theorem mask_testBit (i j : Nat) (hi : i < PB_CONFIG_COUNT) (hj : j < PB_CONFIG_COUNT) :
    ((1 <<< j) &&& (PB_EVN_LONG_MASK ^^^ 0xFFFFFFFF)).testBit i = decide (j = i) ∧
    (((1 <<< j) ||| PB_EVN_LONG_MASK) &&& (PB_EVN_LONG_MASK ^^^ 0xFFFFFFFF)).testBit i =
      decide (j = i) := by
  simp only [PB_CONFIG_COUNT] at hi hj
  interval_cases i <;> interval_cases j <;> decide

/-- Every buffered event was either buffered before or pushed since. -/
theorem content_push_all (s : pb_t) (es : List (Nat × pb_evn_t)) (h : wf s)
    (e : pb_evn_t) (he : e ∈ content (push_all s es)) :
    e ∈ content s ∨ ∃ p ∈ es, p.2 = e := by
  induction es generalizing s with
  | nil => exact Or.inl he
  | cons p es ih =>
    rw [push_all_cons] at he
    rcases ih _ (wf_evn_add s p.2 h) he with h1 | ⟨q, hq, hqe⟩
    · rw [content_evn_add s p.2 h] at h1
      split at h1
      · rcases List.mem_append.mp h1 with h2 | h2
        · exact Or.inl h2
        · exact Or.inr ⟨p, List.mem_cons_self _ _, (List.mem_singleton.mp h2).symm⟩
      · exact Or.inl h1
    · exact Or.inr ⟨q, List.mem_cons_of_mem _ hq, hqe⟩

theorem content_cnt (s : pb_t) (c : Fin PB_KEY_COUNT → Nat) :
    content { s with cnt := c } = content s := rfl

theorem wf_ticks (s : pb_t) (lvs : List Levels) (h : wf s) : wf (pb_ticks s lvs) := by
  induction lvs generalizing s with
  | nil => exact h
  | cons lv lvs ih => exact ih _ (wf_tim_cb lv s h)

/-- With ticks only, every buffered event was buffered at the start or offered
by some tick. -/
theorem content_ticks (s : pb_t) (lvs : List Levels) (h : wf s)
    (e : pb_evn_t) (he : e ∈ content (pb_ticks s lvs)) :
    e ∈ content s ∨ ∃ p ∈ pb_ticks_log s lvs, p.2 = e := by
  induction lvs generalizing s with
  | nil => exact Or.inl he
  | cons lv lvs ih =>
    rcases ih _ (wf_tim_cb lv s h) he with h1 | ⟨q, hq, hqe⟩
    · rw [pb_tim_cb_eq, content_cnt] at h1
      rcases content_push_all s _ h e h1 with h2 | ⟨q, hq, hqe⟩
      · exact Or.inl h2
      · refine Or.inr ⟨q, ?_, hqe⟩
        show q ∈ (pb_tim_cb_log lv s).2 ++ _
        rw [pb_tim_cb_log_snd]
        exact List.mem_append_left _ hq
    · refine Or.inr ⟨q, ?_, hqe⟩
      exact List.mem_append_right _ hq

theorem content_clear (s : pb_t) : content (pb_clear s) = [] := by
  simp [content, pb_clear]

/-! ## Debounce -/

/-- A run in progress shows up among the maximal runs with at least its
current length. -/
theorem pressed_runs_ge (i : Nat) (lvs : List Levels) (c : Nat) (hc : 0 < c) :
    ∃ r ∈ pressed_runs i lvs c, c ≤ r := by
  induction lvs generalizing c with
  | nil =>
    refine ⟨c, ?_, Nat.le_refl c⟩
    simp [pressed_runs, Nat.pos_iff_ne_zero.mp hc]
  | cons lv lvs ih =>
    by_cases hl : lv i = true
    · refine ⟨c, ?_, Nat.le_refl c⟩
      simp [pressed_runs, hl, Nat.pos_iff_ne_zero.mp hc]
    · obtain ⟨r, hr, hle⟩ := ih (c + 1) (Nat.succ_pos c)
      refine ⟨r, ?_, Nat.le_of_succ_le hle⟩
      simpa [pressed_runs, hl] using hr

/-- While every maximal pressed run of button `i` stays below the short
threshold, no tick offers an event of button `i`. -/
theorem debounce_log (i : Nat) (hi : i < PB_CONFIG_COUNT) (lvs : List Levels) (s : pb_t)
    (hr : ∀ r ∈ pressed_runs i lvs (arr_get s.cnt i), r < PB_SHORT_TIME_MS / PB_INTERVAL_MS) :
    ∀ p ∈ pb_ticks_log s lvs, p.1 ≠ i := by
  induction lvs generalizing s with
  | nil => intro p hp; exact absurd hp (List.not_mem_nil _)
  | cons lv lvs ih =>
    have hcur : arr_get s.cnt i < PB_SHORT_TIME_MS / PB_INTERVAL_MS := by
      by_cases h0 : arr_get s.cnt i = 0
      · rw [h0]; decide
      · obtain ⟨r, hmem, hle⟩ := pressed_runs_ge i (lv :: lvs) _ (Nat.pos_of_ne_zero h0)
        exact Nat.lt_of_le_of_lt hle (hr r hmem)
    intro p hp
    rcases List.mem_append.mp hp with h1 | h1
    · rw [pb_tim_cb_log_snd] at h1
      intro hpi
      obtain ⟨-, hmem⟩ := mem_tick_offers lv s.cnt p h1
      rw [hpi] at hmem
      obtain ⟨-, -, h2 | h2⟩ := mem_offer lv s.cnt i p hmem
      · exact absurd (Nat.lt_of_lt_of_le hcur (Nat.le_trans (by decide) h2.1)) (Nat.lt_irrefl _)
      · exact absurd (Nat.lt_of_lt_of_le hcur h2.1) (Nat.lt_irrefl _)
    · refine ih (pb_tim_cb lv s) ?_ p h1
      rw [cnt_tim_cb lv s i hi]
      by_cases hl : lv i = true
      · intro r hmem
        rw [if_pos hl] at hmem
        refine hr r ?_
        by_cases h0 : arr_get s.cnt i = 0
        · simpa [pressed_runs, hl, h0] using hmem
        · simp only [pressed_runs, hl, h0, if_true, if_false]
          exact List.mem_cons_of_mem _ hmem
      · intro r hmem
        rw [if_neg hl, Nat.mod_eq_of_lt (Nat.lt_trans (Nat.succ_lt_succ hcur) (by decide))] at hmem
        refine hr r ?_
        simpa [pressed_runs, hl] using hmem

/-- Every logged offer is the short or the long event of a button below 3. -/
theorem mem_ticks_log (s : pb_t) (lvs : List Levels) (p : Nat × pb_evn_t)
    (h : p ∈ pb_ticks_log s lvs) :
    p.1 < PB_CONFIG_COUNT ∧ (p.2 = 1 <<< p.1 ∨ p.2 = (1 <<< p.1) ||| PB_EVN_LONG_MASK) := by
  induction lvs generalizing s with
  | nil => exact absurd h (List.not_mem_nil _)
  | cons lv lvs ih =>
    rcases List.mem_append.mp h with h1 | h1
    · rw [pb_tim_cb_log_snd] at h1
      obtain ⟨hlt, hmem⟩ := mem_tick_offers lv s.cnt p h1
      obtain ⟨-, -, h2 | h2⟩ := mem_offer lv s.cnt p.1 p hmem
      · exact ⟨hlt, Or.inr h2.2⟩
      · exact ⟨hlt, Or.inl h2.2.2⟩
    · exact ih _ h1

theorem press_release_none (s0 : pb_t) (i n : Nat) (hi : i < PB_CONFIG_COUNT) (hn : n < 5) :
    pb_ticks (pb_clear s0) (press_release i n) = pb_clear s0 ∧
      pb_ticks_log (pb_clear s0) (press_release i n) = [] := by
  obtain ⟨e1, e2⟩ := press_release_run s0 i n hi (Nat.lt_trans hn (by decide))
  rw [offer_none i n hi hn] at e1 e2
  exact ⟨e1, e2⟩

/-- The offers of button `j` are the only entries of the log tagged `j`. -/
theorem filter_offer (lv : Levels) (c : Fin PB_KEY_COUNT → Nat) (i j : Nat) :
    (offer lv c j).filter (fun p => decide (p.1 = i)) = if j = i then offer lv c j else [] := by
  unfold offer
  by_cases e : j = i <;> split_ifs <;> simp [e]

theorem filter_tick_offers (lv : Levels) (c : Fin PB_KEY_COUNT → Nat) (i : Nat)
    (hi : i < PB_CONFIG_COUNT) :
    (tick_offers lv c).filter (fun p => decide (p.1 = i)) = offer lv c i := by
  unfold tick_offers
  simp only [List.filter_append, filter_offer]
  simp only [PB_CONFIG_COUNT] at hi
  interval_cases i <;> simp

theorem offer_released (lv : Levels) (c : Fin PB_KEY_COUNT → Nat) (i : Nat)
    (hl : lv i = true) :
    offer lv c i =
      if PB_LONG_TIME_MS / PB_INTERVAL_MS ≤ arr_get c i then
        [(i, (1 <<< i) ||| PB_EVN_LONG_MASK)]
      else if PB_SHORT_TIME_MS / PB_INTERVAL_MS ≤ arr_get c i then [(i, 1 <<< i)]
      else [] := by
  unfold offer
  rw [if_pos hl]

/-! ## The queue as a list -/

/-- Under the index invariant the source test for a free slot says that fewer
than three events are buffered. -/
theorem accepts_iff (s : pb_t) (h : wf s) :
    (s.evn_head + 1) % 4294967296 % PB_EVN_QUEUE_SIZE ≠ s.evn_tail ↔
      (content s).length < 3 := by
  obtain ⟨cb, cnt, evn, hd, tl⟩ := s
  obtain ⟨h1, h2⟩ := h
  simp only [PB_EVN_QUEUE_SIZE] at h1 h2
  interval_cases hd <;> interval_cases tl <;> simp [content]

theorem pb_loop_empty (s : pb_t) (h : s.evn_head = s.evn_tail) :
    pb_loop s = { state := s, event := 0, calls := [] } := by
  unfold pb_loop
  simp [h]

/-- Accepted events are the returned ones followed by those still buffered. -/
theorem fifo_aux (ops : List QOp) (s : pb_t) (h : wf s) :
    content s ++ q_accepted s ops = q_returned s ops ++ content (q_final s ops) := by
  induction ops generalizing s with
  | nil => simp [q_accepted, q_returned, q_final]
  | cons op ops ih =>
    cases op with
    | add e =>
      have hc := content_evn_add s e h
      have ih1 := ih (pb_evn_add s e) (wf_evn_add s e h)
      by_cases hacc : (s.evn_head + 1) % 4294967296 % PB_EVN_QUEUE_SIZE ≠ s.evn_tail
      · rw [if_pos ((accepts_iff s h).mp hacc)] at hc
        rw [hc] at ih1
        simp only [q_accepted, q_returned, q_final, if_pos hacc]
        rw [← ih1]
        simp
      · rw [if_neg (fun hl => hacc ((accepts_iff s h).mpr hl))] at hc
        rw [hc] at ih1
        simp only [q_accepted, q_returned, q_final, if_neg hacc]
        exact ih1
    | loop =>
      have ih1 := ih (pb_loop s).state (wf_loop s h)
      by_cases hne : s.evn_head ≠ s.evn_tail
      · simp only [q_accepted, q_returned, q_final, if_pos hne]
        rw [content_loop s h hne, List.cons_append, List.cons_append, ih1]
      · have he : s.evn_head = s.evn_tail := not_not.mp hne
        rw [pb_loop_empty s he] at ih1
        simp only [q_accepted, q_returned, q_final, if_neg hne]
        rw [pb_loop_empty s he]
        exact ih1

/-- Successive pushes keep the first three events of what was buffered
followed by what was offered. -/
theorem content_foldl_add (es : List pb_evn_t) (s : pb_t) (h : wf s) :
    content (es.foldl pb_evn_add s) = (content s ++ es).take 3 := by
  induction es generalizing s with
  | nil =>
    rw [List.foldl_nil, List.append_nil, List.take_of_length_le (content_length_le s)]
  | cons e es ih =>
    rw [List.foldl_cons, ih _ (wf_evn_add s e h), content_evn_add s e h]
    by_cases hl : (content s).length < 3
    · rw [if_pos hl, List.append_assoc]
      rfl
    · rw [if_neg hl]
      have h3 : 3 ≤ (content s).length := Nat.le_of_not_lt hl
      rw [List.take_append_of_le_length h3, List.take_append_of_le_length h3]

theorem wf_foldl_add (es : List pb_evn_t) (s : pb_t) (h : wf s) :
    wf (es.foldl pb_evn_add s) := by
  induction es generalizing s with
  | nil => exact h
  | cons e es ih => exact ih _ (wf_evn_add s e h)

/-- Successive `pb_loop` calls return the buffered events in order, then 0. -/
theorem pb_loop_events_eq (n : Nat) (s : pb_t) (h : wf s) :
    pb_loop_events s n =
      (content s).take n ++ List.replicate (n - (content s).length) 0 := by
  induction n generalizing s with
  | zero => simp [pb_loop_events]
  | succ n ih =>
    rw [pb_loop_events, ih _ (wf_loop s h)]
    by_cases he : s.evn_head = s.evn_tail
    · rw [pb_loop_empty s he, (content_empty_iff s h).mpr he]
      simp [List.replicate_succ]
    · rw [content_loop s h he]
      simp

theorem wf_reachableQ (s : pb_t) (h : ReachableQ s) : wf s := by
  induction h with
  | clear s => exact wf_clear s
  | tick lv s _ ih => exact wf_tim_cb lv s ih
  | add e s _ ih => exact wf_evn_add s e ih
  | loop s _ ih => exact wf_loop s ih

theorem content_length (s : pb_t) (h : wf s) :
    (content s).length = (s.evn_head + 4294967296 - s.evn_tail) % 4294967296 % 4 := by
  obtain ⟨h1, h2⟩ := h
  simp only [PB_EVN_QUEUE_SIZE] at h1 h2
  simp only [content, List.length_map, List.length_range, PB_EVN_QUEUE_SIZE]
  omega

theorem pb_evn_add_drop (s : pb_t) (e : pb_evn_t)
    (hfull : (s.evn_head + 1) % 4294967296 % PB_EVN_QUEUE_SIZE = s.evn_tail) :
    pb_evn_add s e = s := by
  unfold pb_evn_add
  simp [hfull]

/-! ## Decoding an event -/

theorem and_two_pow_testBit (e n : Nat) :
    decide (e &&& 2 ^ n ≠ 0) = e.testBit n := by
  cases hb : e.testBit n
  · have hz : e &&& 2 ^ n = 0 := by
      apply Nat.eq_of_testBit_eq
      intro k
      rw [Nat.testBit_and, Nat.testBit_two_pow, Nat.zero_testBit]
      by_cases hk : n = k
      · subst hk; simp [hb]
      · simp [hk]
    simp [hz]
  · have hnz : e &&& 2 ^ n ≠ 0 := by
      intro hz
      have h1 : (e &&& 2 ^ n).testBit n = true := by
        rw [Nat.testBit_and, Nat.testBit_two_pow_self, hb]
        rfl
      rw [hz, Nat.zero_testBit] at h1
      exact Bool.noConfusion h1
    simp [hnz]

theorem low_bits_testBit (e n : Nat) (h : e < 2 ^ (n + 1)) (k : Nat) :
    (e &&& (2 ^ n - 1)).testBit k = (e.testBit k && decide (k ≠ n)) := by
  rw [Nat.testBit_and, Nat.testBit_two_pow_sub_one]
  by_cases hk : k < n
  · have : k ≠ n := Nat.ne_of_lt hk
    simp [hk, this]
  · by_cases hk2 : k = n
    · subst hk2; simp
    · have hge : n + 1 ≤ k := by omega
      have hlt : e < 2 ^ k :=
        Nat.lt_of_lt_of_le h (Nat.pow_le_pow_right (by decide) hge)
      simp [Nat.testBit_lt_two_pow hlt, hk]

theorem low_bits_join (e n : Nat) (h : e < 2 ^ (n + 1)) :
    (e &&& (2 ^ n - 1)) ||| (if e.testBit n then 2 ^ n else 0) = e := by
  apply Nat.eq_of_testBit_eq
  intro k
  rw [Nat.testBit_or, low_bits_testBit e n h k]
  by_cases hk : k = n
  · subst hk
    cases hb : e.testBit k
    · simp
    · simp [Nat.testBit_two_pow_self]
  · have hk2 : ¬ n = k := fun h => hk h.symm
    cases hb : e.testBit n
    · simp [hk]
    · simp [hk, Nat.testBit_two_pow, hk2]

theorem long_flag_testBit (e : Nat) :
    decide (e &&& PB_EVN_LONG_MASK ≠ 0) = e.testBit 31 :=
  and_two_pow_testBit e 31

theorem mask_bits (e : Nat) (h32 : e < 4294967296) (k : Nat) :
    (e &&& (PB_EVN_LONG_MASK ^^^ 0xFFFFFFFF)).testBit k =
      (e.testBit k && decide (k ≠ 31)) :=
  low_bits_testBit e 31 h32 k

theorem mask_flag_join (e : Nat) (h32 : e < 4294967296) :
    (e &&& (PB_EVN_LONG_MASK ^^^ 0xFFFFFFFF)) |||
      (if e.testBit 31 then PB_EVN_LONG_MASK else 0) = e :=
  low_bits_join e 31 h32

/-! ## Buffered events are never zero -/

theorem tick_offers_ne_zero (lv : Levels) (c : Fin PB_KEY_COUNT → Nat) (p : Nat × pb_evn_t)
    (h : p ∈ tick_offers lv c) : p.2 ≠ 0 := by
  obtain ⟨hlt, hmem⟩ := mem_tick_offers lv c p h
  obtain ⟨-, -, -, -, b5, b6, -⟩ := evn_bits p.1 hlt
  obtain ⟨-, -, h2 | h2⟩ := mem_offer lv c p.1 p hmem
  · rw [h2.2]; exact b6
  · rw [h2.2.2]; exact b5

theorem content_loop_subset (s : pb_t) (h : wf s) (e : pb_evn_t)
    (he : e ∈ content (pb_loop s).state) : e ∈ content s := by
  by_cases hne : s.evn_head = s.evn_tail
  · rw [pb_loop_empty s hne] at he
    exact he
  · rw [content_loop s h hne]
    exact List.mem_cons_of_mem _ he

theorem reachable_inv (s : pb_t) (h : Reachable s) : wf s ∧ ∀ e ∈ content s, e ≠ 0 := by
  induction h with
  | clear s =>
    refine ⟨wf_clear s, ?_⟩
    intro e he
    rw [content_clear] at he
    exact absurd he (List.not_mem_nil _)
  | tick lv s _ ih =>
    refine ⟨wf_tim_cb lv s ih.1, ?_⟩
    intro e he
    rw [pb_tim_cb_eq, content_cnt] at he
    rcases content_push_all s _ ih.1 e he with h1 | ⟨p, hp, hpe⟩
    · exact ih.2 e h1
    · rw [← hpe]
      exact tick_offers_ne_zero lv s.cnt p hp
  | loop s _ ih =>
    exact ⟨wf_loop s ih.1, fun e he => ih.2 e (content_loop_subset s ih.1 e he)⟩

theorem reachable_ticks (s : pb_t) (lvs : List Levels) (h : Reachable s) :
    Reachable (pb_ticks s lvs) := by
  induction lvs generalizing s with
  | nil => exact h
  | cons lv lvs ih => exact ih _ (Reachable.tick lv s h)

/-! ## Shape of the events -/

/-- The button mask of either event of a button `i < 3` is the single bit `i`. -/
theorem evn_mask (i : Nat) (hi : i < PB_CONFIG_COUNT) :
    (1 <<< i) &&& 0x7FFFFFFF = 2 ^ i ∧
    ((1 <<< i) ||| PB_EVN_LONG_MASK) &&& 0x7FFFFFFF = 2 ^ i ∧
    2 ^ i &&& PB_EVN_LONG_MASK = 0 := by
  simp only [PB_CONFIG_COUNT] at hi
  interval_cases i <;> decide

/-- What one tick offers: short or long events of buttons below 3. -/
theorem tick_offers_shape (lv : Levels) (c : Fin PB_KEY_COUNT → Nat) (p : Nat × pb_evn_t)
    (h : p ∈ tick_offers lv c) :
    p.1 < PB_CONFIG_COUNT ∧ (p.2 = 1 <<< p.1 ∨ p.2 = (1 <<< p.1) ||| PB_EVN_LONG_MASK) := by
  obtain ⟨hlt, hmem⟩ := mem_tick_offers lv c p h
  obtain ⟨-, -, h2 | h2⟩ := mem_offer lv c p.1 p hmem
  · exact ⟨hlt, Or.inr h2.2⟩
  · exact ⟨hlt, Or.inl h2.2.2⟩

/-- Every event buffered in a reachable state is the short or the long event
of a button below 3. -/
theorem reachable_events (s : pb_t) (h : Reachable s) :
    wf s ∧ ∀ e ∈ content s, ∃ i, i < PB_CONFIG_COUNT ∧
      (e = 1 <<< i ∨ e = (1 <<< i) ||| PB_EVN_LONG_MASK) := by
  induction h with
  | clear s =>
    refine ⟨wf_clear s, ?_⟩
    intro e he
    rw [content_clear] at he
    exact absurd he (List.not_mem_nil _)
  | tick lv s _ ih =>
    refine ⟨wf_tim_cb lv s ih.1, ?_⟩
    intro e he
    rw [pb_tim_cb_eq, content_cnt] at he
    rcases content_push_all s _ ih.1 e he with h1 | ⟨p, hp, hpe⟩
    · exact ih.2 e h1
    · obtain ⟨hlt, hev⟩ := tick_offers_shape lv s.cnt p hp
      rw [hpe] at hev
      exact ⟨p.1, hlt, hev⟩
  | loop s _ ih =>
    exact ⟨wf_loop s ih.1, fun e he => ih.2 e (content_loop_subset s ih.1 e he)⟩


/-! ## Builds with other timing settings -/

/-- With a non-zero interval the loop body of a build is defined. -/
theorem pb_tim_cb_step_with_some (t : pb_timing) (ht : t.interval_ms ≠ 0) (lv : Levels)
    (st : pb_t × List (Nat × pb_evn_t)) (i : Nat) :
    ∃ r, pb_tim_cb_step_with t lv st i = some r := by
  unfold pb_tim_cb_step_with
  by_cases hl : lv i = true
  · rw [if_pos hl, if_neg ht]
    exact ⟨_, rfl⟩
  · rw [if_neg hl]
    exact ⟨_, rfl⟩

/-- The loop body of a build keeps the queue indices inside the buffer. -/
theorem wf_tim_cb_step_with (t : pb_timing) (lv : Levels)
    (st r : pb_t × List (Nat × pb_evn_t)) (i : Nat) (hw : wf st.1)
    (h : pb_tim_cb_step_with t lv st i = some r) : wf r.1 := by
  unfold pb_tim_cb_step_with at h
  by_cases hl : lv i = true
  · rw [if_pos hl] at h
    by_cases h0 : t.interval_ms = 0
    · rw [if_pos h0] at h
      exact Option.noConfusion h
    · rw [if_neg h0] at h
      have hr := (Option.some.inj h).symm
      rw [hr]
      dsimp only
      split
      · exact wf_evn_add _ _ hw
      · split
        · exact wf_evn_add _ _ hw
        · exact hw
  · rw [if_neg hl] at h
    have hr := (Option.some.inj h).symm
    rw [hr]
    exact hw

theorem pb_scan_with_some (t : pb_timing) (ht : t.interval_ms ≠ 0) (lv : Levels)
    (is : List Nat) (st : pb_t × List (Nat × pb_evn_t)) (hw : wf st.1) :
    ∃ r, pb_scan_with t lv is st = some r ∧ wf r.1 := by
  induction is generalizing st with
  | nil => exact ⟨st, rfl, hw⟩
  | cons i is ih =>
    obtain ⟨r1, h1⟩ := pb_tim_cb_step_with_some t ht lv st i
    obtain ⟨r, h2, h3⟩ := ih r1 (wf_tim_cb_step_with t lv st r1 i hw h1)
    refine ⟨r, ?_, h3⟩
    simp only [pb_scan_with, h1]
    exact h2

/-- With a non-zero interval every tick of a build is defined and keeps the
queue indices inside the buffer. -/
theorem pb_tim_cb_with_some (t : pb_timing) (ht : t.interval_ms ≠ 0) (lv : Levels)
    (s : pb_t) (hw : wf s) : ∃ r, pb_tim_cb_with t lv s = some r ∧ wf r.1 :=
  pb_scan_with_some t ht lv _ (s, []) hw

theorem pb_ticks_with_some (t : pb_timing) (ht : t.interval_ms ≠ 0) (lvs : List Levels)
    (s : pb_t) (hw : wf s) : ∃ r, pb_ticks_with t s lvs = some r ∧ wf r.1 := by
  induction lvs generalizing s with
  | nil => exact ⟨(s, []), rfl, hw⟩
  | cons lv lvs ih =>
    obtain ⟨r1, h1, w1⟩ := pb_tim_cb_with_some t ht lv s hw
    obtain ⟨r2, h2, w2⟩ := ih r1.1 w1
    refine ⟨(r2.1, r1.2 ++ r2.2), ?_, w2⟩
    simp only [pb_ticks_with, h1, h2]

/-- With the shipped settings the loop body of the build is `pb_tim_cb_step`. -/
theorem pb_tim_cb_step_with_shipped (lv : Levels) (st : pb_t × List (Nat × pb_evn_t))
    (i : Nat) :
    pb_tim_cb_step_with pb_timing_shipped lv st i = some (pb_tim_cb_step lv st i) := by
  unfold pb_tim_cb_step_with pb_tim_cb_step
  have h0 : ¬ pb_timing_shipped.interval_ms = 0 := by decide
  by_cases hl : lv i = true
  · rw [if_pos hl, if_neg h0, if_pos hl]
    rfl
  · rw [if_neg hl, if_neg hl]

theorem pb_scan_with_shipped (lv : Levels) (is : List Nat)
    (st : pb_t × List (Nat × pb_evn_t)) :
    pb_scan_with pb_timing_shipped lv is st = some (is.foldl (pb_tim_cb_step lv) st) := by
  induction is generalizing st with
  | nil => rfl
  | cons i is ih =>
    simp only [pb_scan_with, pb_tim_cb_step_with_shipped, List.foldl_cons]
    exact ih _

/-- With the shipped settings the tick of the build is `pb_tim_cb`. -/
theorem pb_tim_cb_with_shipped (lv : Levels) (s : pb_t) :
    pb_tim_cb_with pb_timing_shipped lv s = some (pb_tim_cb_log lv s) :=
  pb_scan_with_shipped lv _ (s, [])

/-! ## Indices stay inside the arrays -/

theorem wf_tim_cb_step (lv : Levels) (st : pb_t × List (Nat × pb_evn_t)) (i : Nat)
    (h : wf st.1) : wf (pb_tim_cb_step lv st i).1 := by
  obtain ⟨s, log⟩ := st
  rw [pb_tim_cb_step_eq]
  exact wf_push_all s _ h

theorem wf_scan (lv : Levels) (is : List Nat) (st : pb_t × List (Nat × pb_evn_t))
    (h : wf st.1) : wf (is.foldl (pb_tim_cb_step lv) st).1 := by
  induction is generalizing st with
  | nil => exact h
  | cons i is ih => exact ih _ (wf_tim_cb_step lv st i h)

/-- Inside the array the modelled write is the update of that one cell. -/
theorem arr_set_update {n : Nat} (a : Fin n → Nat) (i v : Nat) (h : i < n) :
    arr_set a i v = Function.update a ⟨i, h⟩ v := by
  funext j
  unfold arr_set Function.update
  by_cases e : j.val = i
  · have : j = ⟨i, h⟩ := Fin.ext e
    simp [e, this]
  · have : j ≠ ⟨i, h⟩ := fun hj => e (congrArg Fin.val hj)
    simp [e, this]

/-- Inside the array the modelled read is that cell. -/
theorem arr_get_cell {n : Nat} (a : Fin n → Nat) (i : Nat) (h : i < n) :
    arr_get a i = a ⟨i, h⟩ := by
  unfold arr_get
  rw [dif_pos h]


/-! ## What a tick leaves alone -/

/-- A push does not touch a buffered slot. -/
theorem evn_add_slot (s : pb_t) (e : pb_evn_t) (h : wf s) (k : Nat)
    (hk : k < (s.evn_head + 4 - s.evn_tail) % 4) :
    arr_get (pb_evn_add s e).evn ((s.evn_tail + k) % 4) =
      arr_get s.evn ((s.evn_tail + k) % 4) := by
  obtain ⟨h1, h2⟩ := h
  simp only [PB_EVN_QUEUE_SIZE] at h1 h2
  unfold pb_evn_add
  dsimp only
  split
  · refine arr_get_set_ne _ _ _ _ ?_
    omega
  · rfl

/-- A push never lowers the number of buffered events. -/
theorem evn_add_count (s : pb_t) (e : pb_evn_t) (h : wf s) :
    (s.evn_head + 4 - s.evn_tail) % 4 ≤
      ((pb_evn_add s e).evn_head + 4 - (pb_evn_add s e).evn_tail) % 4 := by
  obtain ⟨h1, h2⟩ := h
  simp only [PB_EVN_QUEUE_SIZE] at h1 h2
  unfold pb_evn_add
  dsimp only
  split
  · rename_i hne
    simp only [PB_EVN_QUEUE_SIZE] at hne ⊢
    omega
  · exact Nat.le_refl _

theorem push_all_slot (es : List (Nat × pb_evn_t)) (s : pb_t) (h : wf s) (k : Nat)
    (hk : k < (s.evn_head + 4 - s.evn_tail) % 4) :
    arr_get (push_all s es).evn ((s.evn_tail + k) % 4) =
      arr_get s.evn ((s.evn_tail + k) % 4) := by
  induction es generalizing s with
  | nil => rfl
  | cons p es ih =>
    rw [push_all_cons]
    have h1 := ih (pb_evn_add s p.2) (wf_evn_add s p.2 h)
      (Nat.lt_of_lt_of_le hk (evn_add_count s p.2 h))
    rw [pb_evn_add_tail] at h1
    rw [h1]
    exact evn_add_slot s p.2 h k hk

theorem push_all_foldl (es : List (Nat × pb_evn_t)) (s : pb_t) :
    push_all s es = (es.map Prod.snd).foldl pb_evn_add s := by
  unfold push_all
  rw [List.foldl_map]

/-- After pushes the content is the first three of what was buffered followed
by what was pushed. -/
theorem content_push_all_eq (es : List (Nat × pb_evn_t)) (s : pb_t) (h : wf s) :
    content (push_all s es) = (content s ++ es.map Prod.snd).take 3 := by
  rw [push_all_foldl, content_foldl_add _ s h]

theorem content_tim_cb (lv : Levels) (s : pb_t) (h : wf s) :
    content (pb_tim_cb lv s) =
      (content s ++ ((pb_tim_cb_log lv s).2).map Prod.snd).take 3 := by
  rw [pb_tim_cb_log_snd, pb_tim_cb_eq, content_cnt, content_push_all_eq _ s h]

theorem content_length_eq (s : pb_t) :
    (content s).length = (s.evn_head + 4 - s.evn_tail) % 4 := by
  simp only [content, List.length_map, List.length_range, PB_EVN_QUEUE_SIZE]


/-! ## One button at a time -/

theorem pb_loop_cnt (s : pb_t) : (pb_loop s).state.cnt = s.cnt := by
  unfold pb_loop
  dsimp only
  split
  · split <;> rfl
  · rfl

/-- The offer of button `i` depends on its own level and counter only. -/
theorem offer_eq (lv : Levels) (c : Fin PB_KEY_COUNT → Nat) (i : Nat) :
    offer lv c i =
      if lv i then
        (if PB_LONG_TIME_MS / PB_INTERVAL_MS ≤ arr_get c i then
          [(i, (1 <<< i) ||| PB_EVN_LONG_MASK)]
         else if PB_SHORT_TIME_MS / PB_INTERVAL_MS ≤ arr_get c i then [(i, 1 <<< i)]
         else [])
      else [] := rfl

/-- The history of button `i` over any sequence of driver calls is the one
computed from its own readings. -/
theorem run_trace_eq (i : Nat) (hi : i < PB_CONFIG_COUNT) (ops : List Op) (s : pb_t) :
    run_trace i s ops =
      button_trace i (arr_get s.cnt i) ((ticks_of ops).map (fun lv => lv i)) := by
  induction ops generalizing s with
  | nil => rfl
  | cons op ops ih =>
    cases op with
    | tick lv =>
      simp only [run_trace, ticks_of, List.map_cons, button_trace]
      rw [ih (pb_tim_cb lv s), cnt_tim_cb lv s i hi, pb_tim_cb_log_snd,
        filter_tick_offers lv s.cnt i hi, offer_eq]
    | loop =>
      simp only [run_trace, ticks_of]
      rw [ih (pb_loop s).state, pb_loop_cnt]

/-- Two tick sequences of the same length that agree on button `i`, tick by
tick, give the same list of readings of button `i`. -/
theorem readings_eq (i : Nat) (l1 l2 : List Levels) (hlen : l1.length = l2.length)
    (hagree : ∀ (k : Nat) (lv1 lv2 : Levels), l1[k]? = some lv1 → l2[k]? = some lv2 → lv1 i = lv2 i) :
    l1.map (fun lv => lv i) = l2.map (fun lv => lv i) := by
  apply List.ext_getElem?
  intro n
  rw [List.getElem?_map, List.getElem?_map]
  cases h1 : l1[n]? with
  | none =>
    cases h2 : l2[n]? with
    | none => rfl
    | some lv2 =>
      have a := List.getElem?_eq_none_iff.mp h1
      obtain ⟨b, -⟩ := List.getElem?_eq_some_iff.mp h2
      omega
  | some lv1 =>
    cases h2 : l2[n]? with
    | none =>
      have a := List.getElem?_eq_none_iff.mp h2
      obtain ⟨b, -⟩ := List.getElem?_eq_some_iff.mp h1
      omega
    | some lv2 =>
      show some (lv1 i) = some (lv2 i)
      rw [hagree n lv1 lv2 h1 h2]


/-! ## Several releases on one tick -/

theorem filter_offer_pair (lv : Levels) (c : Fin PB_KEY_COUNT → Nat) (i j k : Nat) :
    (offer lv c k).filter (fun p => decide (p.1 = i ∨ p.1 = j)) =
      if k = i ∨ k = j then offer lv c k else [] := by
  unfold offer
  by_cases e : k = i ∨ k = j <;> split_ifs <;> simp [e]

theorem offer_release_evn (lv : Levels) (c : Fin PB_KEY_COUNT → Nat) (i : Nat)
    (hl : lv i = true) (hc : PB_SHORT_TIME_MS / PB_INTERVAL_MS ≤ arr_get c i) :
    offer lv c i = [(i, release_evn (arr_get c i) i)] := by
  rw [offer_eq, if_pos hl]
  unfold release_evn
  by_cases h : PB_LONG_TIME_MS / PB_INTERVAL_MS ≤ arr_get c i
  · rw [if_pos h, if_pos h]
  · rw [if_neg h, if_neg h, if_pos hc]

theorem offer_nothing (lv : Levels) (c : Fin PB_KEY_COUNT → Nat) (k : Nat)
    (h : lv k = false ∨ arr_get c k < PB_SHORT_TIME_MS / PB_INTERVAL_MS) :
    offer lv c k = [] := by
  rw [offer_eq]
  rcases h with h | h
  · rw [h]
    rfl
  · have a : ¬ PB_LONG_TIME_MS / PB_INTERVAL_MS ≤ arr_get c k :=
      Nat.not_le.mpr (Nat.lt_of_lt_of_le h (by decide))
    have b : ¬ PB_SHORT_TIME_MS / PB_INTERVAL_MS ≤ arr_get c k := Nat.not_le.mpr h
    rw [if_neg a, if_neg b]
    split <;> rfl


/-! ## Main results -/

/-- C1: a short press, end to end. From a cleared handle, holding button
`i < 3` alone for `n` ticks with `5 ≤ n < 100` and then releasing every button
leaves exactly the event `1 <<< i` in the queue (the only event offered), its
long flag is clear, and the next `pb_loop` returns `1 <<< i` and makes the one
callback call `(false, 1 <<< i)` when a callback is registered. -/
theorem short_press_end_to_end (s0 : pb_t) (i n : Nat) (hi : i < PB_CONFIG_COUNT)
    (h5 : PB_SHORT_TIME_MS / PB_INTERVAL_MS ≤ n)
    (h100 : n < PB_LONG_TIME_MS / PB_INTERVAL_MS) :
    PB_SHORT_TIME_MS / PB_INTERVAL_MS = 5 ∧ PB_LONG_TIME_MS / PB_INTERVAL_MS = 100 ∧
    content (pb_ticks (pb_clear s0) (press_release i n)) = [1 <<< i] ∧
    pb_ticks_log (pb_clear s0) (press_release i n) = [(i, 1 <<< i)] ∧
    (1 <<< i) &&& PB_EVN_LONG_MASK = 0 ∧
    (pb_loop (pb_ticks (pb_clear s0) (press_release i n))).event = 1 <<< i ∧
    (pb_loop (pb_ticks (pb_clear s0) (press_release i n))).calls =
      (if s0.callback ≠ NULL then [(false, 1 <<< i)] else []) ∧
    content (pb_loop (pb_ticks (pb_clear s0) (press_release i n))).state = [] := by
  have hn : n < 65536 := Nat.lt_trans h100 (by decide)
  obtain ⟨e1, e2⟩ := press_release_run s0 i n hi hn
  rw [offer_short i n hi h5 h100] at e1 e2
  rw [push_all_cons, push_all_nil] at e1
  obtain ⟨b1, b2, -⟩ := evn_bits i hi
  obtain ⟨c1, c2, c3, c4⟩ := single_event s0 (1 <<< i)
  rw [e1, e2]
  refine ⟨rfl, rfl, c1, rfl, b1, c2, ?_, c4⟩
  rw [c3, b1, b2]
  simp

/-- C1, witness: button 0 held for 6 ticks then released, with a callback
registered: the event is `0b001`, returned and dispatched as `(false, 0b001)`. -/
theorem short_press_end_to_end_witness :
    0 < PB_CONFIG_COUNT ∧ PB_SHORT_TIME_MS / PB_INTERVAL_MS ≤ 6 ∧
    6 < PB_LONG_TIME_MS / PB_INTERVAL_MS ∧
    content (pb_ticks (pb_clear { pb_zero with callback := 1 }) (press_release 0 6)) = [1] ∧
    (pb_loop (pb_ticks (pb_clear { pb_zero with callback := 1 })
      (press_release 0 6))).event = 1 ∧
    (pb_loop (pb_ticks (pb_clear { pb_zero with callback := 1 })
      (press_release 0 6))).calls = [(false, 1)] :=
  have h := short_press_end_to_end { pb_zero with callback := 1 } 0 6
    (by decide) (by decide) (by decide)
  ⟨by decide, by decide, by decide, h.2.2.1, h.2.2.2.2.2.1, h.2.2.2.2.2.2.1⟩

/-- C2: a long press, end to end. From a cleared handle, holding button `i < 3`
alone for `n` ticks with `100 ≤ n ≤ 65535` and then releasing every button
leaves exactly the event `(1 <<< i) ||| 0x80000000` in the queue (the only
event offered), which is not the short event `1 <<< i`; the next `pb_loop`
returns it and makes the one callback call `(true, 1 <<< i)` when a callback is
registered. -/
theorem long_press_end_to_end (s0 : pb_t) (i n : Nat) (hi : i < PB_CONFIG_COUNT)
    (h100 : PB_LONG_TIME_MS / PB_INTERVAL_MS ≤ n) (hmax : n ≤ 65535) :
    PB_LONG_TIME_MS / PB_INTERVAL_MS = 100 ∧
    content (pb_ticks (pb_clear s0) (press_release i n)) = [(1 <<< i) ||| PB_EVN_LONG_MASK] ∧
    pb_ticks_log (pb_clear s0) (press_release i n) = [(i, (1 <<< i) ||| PB_EVN_LONG_MASK)] ∧
    (1 <<< i) ||| PB_EVN_LONG_MASK ≠ 1 <<< i ∧
    (pb_loop (pb_ticks (pb_clear s0) (press_release i n))).event =
      (1 <<< i) ||| PB_EVN_LONG_MASK ∧
    (pb_loop (pb_ticks (pb_clear s0) (press_release i n))).calls =
      (if s0.callback ≠ NULL then [(true, 1 <<< i)] else []) ∧
    content (pb_loop (pb_ticks (pb_clear s0) (press_release i n))).state = [] := by
  have hn : n < 65536 := Nat.lt_succ_of_le hmax
  obtain ⟨e1, e2⟩ := press_release_run s0 i n hi hn
  rw [offer_long i n hi h100] at e1 e2
  rw [push_all_cons, push_all_nil] at e1
  obtain ⟨-, -, b3, b4, -, -, b7⟩ := evn_bits i hi
  obtain ⟨c1, c2, c3, c4⟩ := single_event s0 ((1 <<< i) ||| PB_EVN_LONG_MASK)
  rw [e1, e2]
  refine ⟨rfl, c1, rfl, b7, c2, ?_, c4⟩
  rw [c3, b4]
  simp [b3]

/-- C2, witness: button 2 held for 120 ticks then released, with a callback
registered: the event is dispatched as `(true, 0b100)`. -/
theorem long_press_end_to_end_witness :
    2 < PB_CONFIG_COUNT ∧ PB_LONG_TIME_MS / PB_INTERVAL_MS ≤ 120 ∧ 120 ≤ 65535 ∧
    content (pb_ticks (pb_clear { pb_zero with callback := 1 }) (press_release 2 120)) =
      [0x80000004] ∧
    (pb_loop (pb_ticks (pb_clear { pb_zero with callback := 1 })
      (press_release 2 120))).event = 0x80000004 ∧
    (pb_loop (pb_ticks (pb_clear { pb_zero with callback := 1 })
      (press_release 2 120))).calls = [(true, 4)] :=
  have h := long_press_end_to_end { pb_zero with callback := 1 } 2 120
    (by decide) (by decide) (by decide)
  ⟨by decide, by decide, by decide, h.2.1, h.2.2.2.2.1, h.2.2.2.2.2.1⟩

/-- C3: debounce. From a cleared handle, for a button `i < 3` and any sequence
of ticks in which every maximal run of consecutive pressed readings of button
`i` is shorter than 5 ticks: no event offered to the queue has bit `i` set in
its button mask, no event buffered after any number of the ticks has it, and
counter `i` is zero after every tick that reads button `i` released. A hold of
4 ticks then release, and the bounce pressed, pressed, released, pressed,
pressed, released, offer nothing and leave the queue empty. -/
theorem debounce_below_threshold (s0 : pb_t) (i : Nat) (hi : i < PB_CONFIG_COUNT) (lvs : List Levels)
    (hr : ∀ r ∈ pressed_runs i lvs 0, r < PB_SHORT_TIME_MS / PB_INTERVAL_MS) :
    (∀ p ∈ pb_ticks_log (pb_clear s0) lvs,
      (p.2 &&& (PB_EVN_LONG_MASK ^^^ 0xFFFFFFFF)).testBit i = false) ∧
    (∀ k, ∀ e ∈ content (pb_ticks (pb_clear s0) (lvs.take k)),
      (e &&& (PB_EVN_LONG_MASK ^^^ 0xFFFFFFFF)).testBit i = false) ∧
    (∀ k lv, lvs[k]? = some lv → lv i = true →
      arr_get (pb_ticks (pb_clear s0) (lvs.take (k + 1))).cnt i = 0) ∧
    (pb_ticks_log (pb_clear s0) (press_release i 4) = [] ∧
      content (pb_ticks (pb_clear s0) (press_release i 4)) = []) ∧
    (pb_ticks_log (pb_clear s0) (press_release i 2 ++ press_release i 2) = [] ∧
      content (pb_ticks (pb_clear s0) (press_release i 2 ++ press_release i 2)) = []) := by
  have hlog : ∀ p ∈ pb_ticks_log (pb_clear s0) lvs,
      (p.2 &&& (PB_EVN_LONG_MASK ^^^ 0xFFFFFFFF)).testBit i = false := by
    intro p hp
    have hz : arr_get (pb_clear s0).cnt i = 0 := by
      unfold arr_get
      split <;> rfl
    have hne := debounce_log i hi lvs (pb_clear s0) (by rw [hz]; exact hr) p hp
    obtain ⟨hlt, hev | hev⟩ := mem_ticks_log _ _ p hp
    · rw [hev, (mask_testBit i p.1 hi hlt).1]
      exact decide_eq_false hne
    · rw [hev, (mask_testBit i p.1 hi hlt).2]
      exact decide_eq_false hne
  refine ⟨hlog, ?_, ?_, ?_, ?_⟩
  · intro k e he
    rcases content_ticks (pb_clear s0) (lvs.take k) (wf_clear s0) e he with h1 | ⟨p, hp, hpe⟩
    · rw [content_clear] at h1
      exact absurd h1 (List.not_mem_nil _)
    · rw [← hpe]
      refine hlog p ?_
      rw [← List.take_append_drop k lvs, pb_ticks_log_append]
      exact List.mem_append_left _ hp
  · intro k lv hk hl
    have ht : lvs.take (k + 1) = lvs.take k ++ [lv] := by
      rw [List.take_succ, hk]
      rfl
    rw [ht, pb_ticks_append]
    show arr_get (pb_tim_cb lv _).cnt i = 0
    rw [cnt_tim_cb lv _ i hi, if_pos hl]
  · obtain ⟨e1, e2⟩ := press_release_none s0 i 4 hi (by decide)
    rw [e1, e2]
    exact ⟨rfl, content_clear s0⟩
  · obtain ⟨e1, e2⟩ := press_release_none s0 i 2 hi (by decide)
    rw [pb_ticks_log_append, pb_ticks_append, e1, e2, e1]
    exact ⟨rfl, content_clear s0⟩

/-- C3, witness: the bounce sequence on button 0, whose two pressed runs have
length 2. -/
theorem debounce_below_threshold_witness :
    0 < PB_CONFIG_COUNT ∧
    (∀ r ∈ pressed_runs 0 (press_release 0 2 ++ press_release 0 2) 0,
      r < PB_SHORT_TIME_MS / PB_INTERVAL_MS) ∧
    (∀ p ∈ pb_ticks_log (pb_clear pb_zero) (press_release 0 2 ++ press_release 0 2),
      (p.2 &&& (PB_EVN_LONG_MASK ^^^ 0xFFFFFFFF)).testBit 0 = false) ∧
    pb_ticks_log (pb_clear pb_zero) (press_release 0 4) = [] :=
  have h := debounce_below_threshold pb_zero 0 (by decide) (press_release 0 2 ++ press_release 0 2)
    (by decide)
  ⟨by decide, by decide, h.1, h.2.2.2.1.1⟩

/-- C4: release transition of one button. When the scan loop reads button
`i < 3` as released in any state `s` with counter `c = cnt[i]`: the loop body
calls `pb_evn_add` with `(1 <<< i) ||| 0x80000000` if `c ≥ 100`, with `1 <<< i`
if `5 ≤ c < 100`, and not at all below 5, then resets the counter; when the
queue is full the state only changes by that reset. Over the whole tick the
offers of button `i` are exactly that event (or none) for the counter value
before the tick, and counter `i` is 0 afterwards. -/
theorem release_transition (lv : Levels) (s : pb_t) (i : Nat) (hi : i < PB_CONFIG_COUNT)
    (hl : lv i = true) :
    (∀ log, pb_tim_cb_step lv (s, log) i =
      if PB_LONG_TIME_MS / PB_INTERVAL_MS ≤ arr_get s.cnt i then
        ({ pb_evn_add s ((1 <<< i) ||| PB_EVN_LONG_MASK) with cnt := arr_set s.cnt i 0 },
          log ++ [(i, (1 <<< i) ||| PB_EVN_LONG_MASK)])
      else if PB_SHORT_TIME_MS / PB_INTERVAL_MS ≤ arr_get s.cnt i then
        ({ pb_evn_add s (1 <<< i) with cnt := arr_set s.cnt i 0 }, log ++ [(i, 1 <<< i)])
      else ({ s with cnt := arr_set s.cnt i 0 }, log)) ∧
    (∀ log, (s.evn_head + 1) % 4294967296 % PB_EVN_QUEUE_SIZE = s.evn_tail →
      (pb_tim_cb_step lv (s, log) i).1 = { s with cnt := arr_set s.cnt i 0 }) ∧
    (∀ log, arr_get (pb_tim_cb_step lv (s, log) i).1.cnt i = 0) ∧
    (pb_tim_cb_log lv s).2.filter (fun p => decide (p.1 = i)) =
      (if PB_LONG_TIME_MS / PB_INTERVAL_MS ≤ arr_get s.cnt i then
        [(i, (1 <<< i) ||| PB_EVN_LONG_MASK)]
      else if PB_SHORT_TIME_MS / PB_INTERVAL_MS ≤ arr_get s.cnt i then [(i, 1 <<< i)]
      else []) ∧
    arr_get (pb_tim_cb lv s).cnt i = 0 := by
  have hstep : ∀ log, pb_tim_cb_step lv (s, log) i =
      ({ push_all s (offer lv s.cnt i) with cnt := arr_set s.cnt i 0 },
        log ++ offer lv s.cnt i) := by
    intro log
    rw [pb_tim_cb_step_eq, if_pos hl]
  refine ⟨?_, ?_, ?_, ?_, ?_⟩
  · intro log
    rw [hstep, offer_released lv s.cnt i hl]
    split_ifs <;> simp [push_all_cons, push_all_nil]
  · intro log hfull
    rw [hstep, offer_released lv s.cnt i hl]
    have hdrop : ∀ e, pb_evn_add s e = s := by
      intro e
      unfold pb_evn_add
      simp [hfull]
    split_ifs <;> simp [push_all_cons, push_all_nil, hdrop]
  · intro log
    rw [hstep]
    exact arr_get_set_same _ _ _ hi
  · rw [pb_tim_cb_log_snd, filter_tick_offers lv s.cnt i hi, offer_released lv s.cnt i hl]
  · rw [cnt_tim_cb lv s i hi, if_pos hl]

/-- C4, witness: button 1 released with its counter at 100 and a full queue. -/
theorem release_transition_witness :
    1 < PB_CONFIG_COUNT ∧ all_released 1 = true ∧
    (pb_tim_cb_log all_released { pb_zero with cnt := fun _ => 100, evn_head := 3 }).2.filter
        (fun p => decide (p.1 = 1)) =
      (if PB_LONG_TIME_MS / PB_INTERVAL_MS ≤
          arr_get ({ pb_zero with cnt := fun _ => 100, evn_head := 3 } : pb_t).cnt 1 then
        [(1, (1 <<< 1) ||| PB_EVN_LONG_MASK)]
      else if PB_SHORT_TIME_MS / PB_INTERVAL_MS ≤
          arr_get ({ pb_zero with cnt := fun _ => 100, evn_head := 3 } : pb_t).cnt 1 then
        [(1, 1 <<< 1)]
      else []) ∧
    arr_get (pb_tim_cb all_released
      { pb_zero with cnt := fun _ => 100, evn_head := 3 }).cnt 1 = 0 :=
  have h := release_transition all_released
    { pb_zero with cnt := fun _ => 100, evn_head := 3 } 1 (by decide) rfl
  ⟨by decide, rfl, h.2.2.2.1, h.2.2.2.2⟩

/-- C5: the counter is a `uint16_t` and wraps. From a cleared handle, after
65535 ticks with button 0 held its counter is 65535, and the next held tick
takes it to 0; a hold of 65536 ticks followed by a release offers no event and
leaves the queue empty, and a hold of 65541 ticks is reported as a short
press. -/
theorem counter_wraps :
    arr_get (pb_ticks (pb_clear pb_zero) (List.replicate 65535 (only_pressed 0))).cnt 0
      = 65535 ∧
    arr_get (pb_tim_cb (only_pressed 0)
      (pb_ticks (pb_clear pb_zero) (List.replicate 65535 (only_pressed 0)))).cnt 0 = 0 ∧
    pb_ticks_log (pb_clear pb_zero) (press_release 0 65536) = [] ∧
    content (pb_ticks (pb_clear pb_zero) (press_release 0 65536)) = [] ∧
    pb_ticks_log (pb_clear pb_zero) (press_release 0 65541) = [(0, 1)] := by
  have hz : ∀ j : Fin PB_KEY_COUNT, j.val ≠ 0 → (pb_clear pb_zero).cnt j = 0 := fun _ _ => rfl
  have hb : ∀ j : Fin PB_KEY_COUNT, (pb_clear pb_zero).cnt j < 65536 := fun _ => by
    show 0 < 65536
    decide
  obtain ⟨e1, -⟩ := hold_ticks 0 65535 (pb_clear pb_zero) hz hb
  obtain ⟨a1, a2⟩ := press_release_run_mod pb_zero 0 65536 (by decide)
  obtain ⟨b1, b2⟩ := press_release_run_mod pb_zero 0 65541 (by decide)
  have m1 : 65536 % 65536 = 0 := by decide
  have m2 : 65541 % 65536 = 5 := by decide
  rw [m1, offer_none 0 0 (by decide) (by decide)] at a1 a2
  rw [m2, offer_short 0 5 (by decide) (by decide) (by decide)] at b2
  refine ⟨?_, ?_, a2, ?_, b2⟩
  · rw [e1]
    rfl
  · rw [cnt_tim_cb _ _ 0 (by decide), e1]
    rfl
  · rw [a1]
    exact content_clear pb_zero

/-- C6: FIFO refinement. With `head < 4` and `tail < 4`, `pb_evn_add s e`
turns the content into `content s ++ [e]` when fewer than 3 events are
buffered and leaves it unchanged otherwise; on a non-empty content `pb_loop`
returns its first element and leaves the rest. For any interleaving of
`pb_evn_add` and `pb_loop` calls from a cleared handle, the accepted events
are exactly the returned values followed by the events still buffered, so the
returned values are an initial segment of the accepted ones, in order. -/
theorem fifo_refinement (s : pb_t) (e : pb_evn_t) (s0 : pb_t) (ops : List QOp) (h : wf s) :
    content (pb_evn_add s e) =
      (if (content s).length < 3 then content s ++ [e] else content s) ∧
    (∀ x xs, content s = x :: xs →
      (pb_loop s).event = x ∧ content (pb_loop s).state = xs) ∧
    q_accepted (pb_clear s0) ops =
      q_returned (pb_clear s0) ops ++ content (q_final (pb_clear s0) ops) := by
  refine ⟨content_evn_add s e h, ?_, ?_⟩
  · intro x xs hx
    have hne : s.evn_head ≠ s.evn_tail := by
      intro he
      rw [(content_empty_iff s h).mpr he] at hx
      exact List.noConfusion hx
    rw [content_loop s h hne] at hx
    exact ⟨(List.cons.inj hx).1, (List.cons.inj hx).2⟩
  · have := fifo_aux ops (pb_clear s0) (wf_clear s0)
    rw [content_clear, List.nil_append] at this
    exact this

/-- C6, witness: a short event of button 0 pushed before a long event of
button 1 on a cleared handle, then two `pb_loop` calls. -/
theorem fifo_refinement_witness :
    wf (pb_evn_add (pb_clear pb_zero) 1) ∧
    content (pb_evn_add (pb_evn_add (pb_clear pb_zero) 1) 0x80000002) =
      (if (content (pb_evn_add (pb_clear pb_zero) 1)).length < 3 then
        content (pb_evn_add (pb_clear pb_zero) 1) ++ [0x80000002]
       else content (pb_evn_add (pb_clear pb_zero) 1)) ∧
    q_accepted (pb_clear pb_zero) [QOp.add 1, QOp.add 0x80000002, QOp.loop, QOp.loop] =
      q_returned (pb_clear pb_zero) [QOp.add 1, QOp.add 0x80000002, QOp.loop, QOp.loop] ++
        content (q_final (pb_clear pb_zero)
          [QOp.add 1, QOp.add 0x80000002, QOp.loop, QOp.loop]) ∧
    q_returned (pb_clear pb_zero) [QOp.add 1, QOp.add 0x80000002, QOp.loop, QOp.loop] =
      [1, 0x80000002] :=
  have h := fifo_refinement (pb_evn_add (pb_clear pb_zero) 1) 0x80000002 pb_zero
    [QOp.add 1, QOp.add 0x80000002, QOp.loop, QOp.loop] (by decide)
  ⟨by decide, h.1, h.2.2, by decide⟩

/-- C7: a push on a full queue is a pure drop. With `head < 4` and
`tail < 4`, `pb_evn_add s e` changes the state exactly when
`(head + 1) % 4 ≠ tail`; it then writes `e` into `evn[head]`, sets `head` to
`(head + 1) % 4` and appends `e` to the content. When `(head + 1) % 4 = tail`
the state, hence every buffered event, is returned unchanged. -/
theorem push_full_is_drop (s : pb_t) (e : pb_evn_t) (h : wf s) :
    (pb_evn_add s e ≠ s ↔ (s.evn_head + 1) % 4 ≠ s.evn_tail) ∧
    ((s.evn_head + 1) % 4 ≠ s.evn_tail →
      pb_evn_add s e =
        { s with evn := arr_set s.evn s.evn_head e, evn_head := (s.evn_head + 1) % 4 } ∧
      arr_get (pb_evn_add s e).evn s.evn_head = e ∧
      content (pb_evn_add s e) = content s ++ [e]) ∧
    ((s.evn_head + 1) % 4 = s.evn_tail → pb_evn_add s e = s) := by
  have hm : (s.evn_head + 1) % 4294967296 % PB_EVN_QUEUE_SIZE = (s.evn_head + 1) % 4 := by
    simp only [PB_EVN_QUEUE_SIZE]
    omega
  have hacc : (s.evn_head + 1) % 4 ≠ s.evn_tail →
      pb_evn_add s e =
        { s with evn := arr_set s.evn s.evn_head e, evn_head := (s.evn_head + 1) % 4 } := by
    intro hne
    unfold pb_evn_add
    simp only [hm, hne, ne_eq, not_false_eq_true, if_true]
  have hdrop : (s.evn_head + 1) % 4 = s.evn_tail → pb_evn_add s e = s := by
    intro heq
    unfold pb_evn_add
    simp only [hm, heq, ne_eq, not_true_eq_false, if_false]
  refine ⟨⟨?_, ?_⟩, ?_, hdrop⟩
  · intro hch hfull
    exact hch (hdrop hfull)
  · intro hne heq
    have hh : (pb_evn_add s e).evn_head = s.evn_head := by rw [heq]
    rw [hacc hne] at hh
    have hh2 : (s.evn_head + 1) % 4 = s.evn_head := hh
    omega
  · intro hne
    refine ⟨hacc hne, ?_, ?_⟩
    · rw [hacc hne]
      exact arr_get_set_same _ _ _ h.1
    · rw [content_evn_add s e h, if_pos]
      refine (accepts_iff s h).mp ?_
      rw [hm]
      exact hne

/-- C7, witness: pushing 5 on the full queue holding 7, 8, 9 changes nothing. -/
theorem push_full_is_drop_witness :
    wf { pb_zero with evn := arr_set (arr_set (arr_set pb_zero.evn 0 7) 1 8) 2 9,
                      evn_head := 3 } ∧
    pb_evn_add { pb_zero with evn := arr_set (arr_set (arr_set pb_zero.evn 0 7) 1 8) 2 9,
                              evn_head := 3 } 5 =
      { pb_zero with evn := arr_set (arr_set (arr_set pb_zero.evn 0 7) 1 8) 2 9,
                     evn_head := 3 } :=
  ⟨by decide,
   (push_full_is_drop
      { pb_zero with evn := arr_set (arr_set (arr_set pb_zero.evn 0 7) 1 8) 2 9,
                     evn_head := 3 } 5 (by decide)).2.2 (by decide)⟩

/-- C8: overflow with 4 slots. Pushing any list of events on an empty queue
with no `pb_loop` in between buffers exactly its first `min k 3` events; with
four events the fourth push leaves the state as it was, the next three
`pb_loop` calls return the first three events in order and the fourth returns
0. In every state reachable from a cleared handle by ticks, pushes and
`pb_loop` calls, `head < 4`, `tail < 4` and the number of buffered events,
`(head - tail) mod 4` in `uint32_t` arithmetic, is at most 3. -/
theorem overflow_drops_newest (s : pb_t) (es : List pb_evn_t) (e1 e2 e3 e4 : pb_evn_t)
    (r : pb_t) (h : wf s) (hempty : s.evn_head = s.evn_tail) (hr : ReachableQ r) :
    PB_EVN_QUEUE_SIZE = 4 ∧
    content (es.foldl pb_evn_add s) = es.take 3 ∧
    (content (es.foldl pb_evn_add s)).length = min es.length 3 ∧
    [e1, e2, e3, e4].foldl pb_evn_add s = [e1, e2, e3].foldl pb_evn_add s ∧
    pb_loop_events ([e1, e2, e3, e4].foldl pb_evn_add s) 4 = [e1, e2, e3, 0] ∧
    wf r ∧
    (content r).length = (r.evn_head + 4294967296 - r.evn_tail) % 4294967296 % 4 ∧
    (r.evn_head + 4294967296 - r.evn_tail) % 4294967296 % 4 ≤ 3 := by
  have hc : ∀ l : List pb_evn_t, content (l.foldl pb_evn_add s) = l.take 3 := by
    intro l
    rw [content_foldl_add l s h, (content_empty_iff s h).mpr hempty, List.nil_append]
  have hwf : ∀ l : List pb_evn_t, wf (l.foldl pb_evn_add s) := fun l => wf_foldl_add l s h
  refine ⟨rfl, hc es, ?_, ?_, ?_, wf_reachableQ r hr, content_length r (wf_reachableQ r hr), ?_⟩
  · rw [hc es, List.length_take, Nat.min_comm]
  · have h3 := hc [e1, e2, e3]
    have hw3 := hwf [e1, e2, e3]
    simp only [List.foldl_cons, List.foldl_nil] at h3 hw3 ⊢
    refine pb_evn_add_drop _ e4 ?_
    by_contra hne
    have hlt := (accepts_iff _ hw3).mp hne
    rw [h3] at hlt
    simp at hlt
  · rw [pb_loop_events_eq 4 _ (hwf [e1, e2, e3, e4]), hc [e1, e2, e3, e4]]
    simp
  · rw [← content_length r (wf_reachableQ r hr)]
    exact content_length_le r

/-- C8, witness: four pushes on a cleared handle, then four `pb_loop` calls. -/
theorem overflow_drops_newest_witness :
    wf (pb_clear pb_zero) ∧ (pb_clear pb_zero).evn_head = (pb_clear pb_zero).evn_tail ∧
    ReachableQ (pb_evn_add (pb_clear pb_zero) 1) ∧
    content ([1, 2, 4, 2147483649].foldl pb_evn_add (pb_clear pb_zero)) =
      [1, 2, 4, 2147483649].take 3 ∧
    pb_loop_events ([1, 2, 4, 2147483649].foldl pb_evn_add (pb_clear pb_zero)) 4 =
      [1, 2, 4, 0] :=
  have h := overflow_drops_newest (pb_clear pb_zero) [1, 2, 4, 2147483649] 1 2 4 2147483649
    (pb_evn_add (pb_clear pb_zero) 1) (by decide) rfl
    (ReachableQ.add 1 _ (ReachableQ.clear pb_zero))
  ⟨by decide, rfl, ReachableQ.add 1 _ (ReachableQ.clear pb_zero), h.2.1, h.2.2.2.2.1⟩

/-- C9: dispatch decoding. On a non-empty queue with a callback registered,
`pb_loop` returns the dequeued event `evn[tail]` and calls the callback exactly
once, with `is_long` equal to bit 31 of that event and `mask` equal to the
event with bit 31 cleared, so the returned value is
`mask ||| (if is_long then 0x80000000 else 0)`. With the callback set to NULL
the same value is returned, no call is made and the state changes in the same
way. -/
theorem dispatch_decoding (s : pb_t) (hne : s.evn_head ≠ s.evn_tail)
    (hcb : s.callback ≠ NULL) (h32 : arr_get s.evn s.evn_tail < 4294967296) :
    (pb_loop s).event = arr_get s.evn s.evn_tail ∧
    (∃ is_long mask, (pb_loop s).calls = [(is_long, mask)] ∧
      is_long = (pb_loop s).event.testBit 31 ∧
      (∀ k, mask.testBit k = ((pb_loop s).event.testBit k && decide (k ≠ 31))) ∧
      (pb_loop s).event = mask ||| (if is_long then 0x80000000 else 0)) ∧
    (pb_loop { s with callback := NULL }).event = (pb_loop s).event ∧
    (pb_loop { s with callback := NULL }).calls = [] ∧
    (pb_loop { s with callback := NULL }).state =
      { (pb_loop s).state with callback := NULL } := by
  have hcb0 : ¬ s.callback = 0 := hcb
  have e1 : (pb_loop s).event = arr_get s.evn s.evn_tail := by
    unfold pb_loop
    simp [hne, hcb0]
  have e2 : (pb_loop s).calls =
      [(decide (arr_get s.evn s.evn_tail &&& PB_EVN_LONG_MASK ≠ 0),
        arr_get s.evn s.evn_tail &&& (PB_EVN_LONG_MASK ^^^ 0xFFFFFFFF))] := by
    unfold pb_loop
    simp [hne, hcb0]
  refine ⟨e1, ⟨_, _, e2, ?_, ?_, ?_⟩, ?_, ?_, ?_⟩
  · rw [e1]
    exact long_flag_testBit _
  · intro k
    rw [e1]
    exact mask_bits _ h32 k
  · rw [e1, long_flag_testBit]
    exact (mask_flag_join _ h32).symm
  · rw [e1]
    unfold pb_loop
    simp [hne]
  · unfold pb_loop
    simp [hne]
  · unfold pb_loop
    simp [hne, hcb0]

/-- C9, witness: the long event of button 2 alone in the queue, with a
callback registered. -/
theorem dispatch_decoding_witness :
    (pb_evn_add (pb_clear { pb_zero with callback := 1 }) 0x80000004).evn_head ≠
      (pb_evn_add (pb_clear { pb_zero with callback := 1 }) 0x80000004).evn_tail ∧
    (pb_evn_add (pb_clear { pb_zero with callback := 1 }) 0x80000004).callback ≠ NULL ∧
    (pb_loop (pb_evn_add (pb_clear { pb_zero with callback := 1 }) 0x80000004)).event =
      arr_get (pb_evn_add (pb_clear { pb_zero with callback := 1 }) 0x80000004).evn
        (pb_evn_add (pb_clear { pb_zero with callback := 1 }) 0x80000004).evn_tail ∧
    (pb_loop (pb_evn_add (pb_clear { pb_zero with callback := 1 }) 0x80000004)).calls =
      [(true, 4)] :=
  have h := dispatch_decoding (pb_evn_add (pb_clear { pb_zero with callback := 1 }) 0x80000004)
    (by decide) (by decide) (by decide)
  ⟨by decide, by decide, h.1, by decide⟩

/-- C10: zero means no event. In every state reachable from a cleared handle
by ticks with arbitrary levels and `pb_loop` calls, `pb_loop` returns 0 exactly
when `head = tail`, and every buffered event is non-zero. -/
theorem zero_means_no_event (s : pb_t) (hr : Reachable s) :
    ((pb_loop s).event = 0 ↔ s.evn_head = s.evn_tail) ∧
    (∀ e ∈ content s, e ≠ 0) := by
  obtain ⟨hw, hnz⟩ := reachable_inv s hr
  refine ⟨⟨?_, ?_⟩, hnz⟩
  · intro h0
    by_contra hne
    have hc := content_loop s hw hne
    have hmem : (pb_loop s).event ∈ content s := by
      rw [hc]
      exact List.mem_cons_self _ _
    exact hnz _ hmem h0
  · intro he
    rw [pb_loop_empty s he]

/-- C10, witness: the state after a short press of button 0 is reachable and
its queue is not empty, so `pb_loop` does not return 0 there. -/
theorem zero_means_no_event_witness :
    Reachable (pb_ticks (pb_clear pb_zero) (press_release 0 6)) ∧
    ((pb_loop (pb_ticks (pb_clear pb_zero) (press_release 0 6))).event = 0 ↔
      (pb_ticks (pb_clear pb_zero) (press_release 0 6)).evn_head =
        (pb_ticks (pb_clear pb_zero) (press_release 0 6)).evn_tail) ∧
    (pb_ticks (pb_clear pb_zero) (press_release 0 6)).evn_head ≠
      (pb_ticks (pb_clear pb_zero) (press_release 0 6)).evn_tail :=
  ⟨reachable_ticks _ _ (Reachable.clear pb_zero),
   (zero_means_no_event _ (reachable_ticks _ _ (Reachable.clear pb_zero))).1,
   by decide⟩

/-- C11: empty dispatch is a no-op. In every state with `head = tail`,
`pb_loop` returns 0, makes no callback call and returns the state unchanged:
head, tail, every buffer slot, every counter and the callback. -/
theorem empty_dispatch_noop (s : pb_t) (h : s.evn_head = s.evn_tail) :
    (pb_loop s).event = 0 ∧ (pb_loop s).calls = [] ∧ (pb_loop s).state = s ∧
    (pb_loop s).state.evn_head = s.evn_head ∧ (pb_loop s).state.evn_tail = s.evn_tail ∧
    (∀ k, arr_get (pb_loop s).state.evn k = arr_get s.evn k) ∧
    (∀ i, arr_get (pb_loop s).state.cnt i = arr_get s.cnt i) := by
  rw [pb_loop_empty s h]
  exact ⟨rfl, rfl, rfl, rfl, rfl, fun _ => rfl, fun _ => rfl⟩

/-- C11, witness: a handle with a callback, non-zero counters and slots, and
`head = tail = 2`. -/
theorem empty_dispatch_noop_witness :
    ({ callback := 1, cnt := fun _ => 7, evn := fun _ => 9, evn_head := 2, evn_tail := 2 }
      : pb_t).evn_head =
    ({ callback := 1, cnt := fun _ => 7, evn := fun _ => 9, evn_head := 2, evn_tail := 2 }
      : pb_t).evn_tail ∧
    (pb_loop { callback := 1, cnt := fun _ => 7, evn := fun _ => 9, evn_head := 2,
               evn_tail := 2 }).event = 0 ∧
    (pb_loop { callback := 1, cnt := fun _ => 7, evn := fun _ => 9, evn_head := 2,
               evn_tail := 2 }).calls = [] :=
  have h := empty_dispatch_noop
    { callback := 1, cnt := fun _ => 7, evn := fun _ => 9, evn_head := 2, evn_tail := 2 } rfl
  ⟨rfl, h.1, h.2.1⟩

/-- C12: event encoding invariant. Every event a tick offers to the queue, in
any state, belongs to a button `i < 3` and its button mask `event & 0x7FFFFFFF`
is `2 ^ i`, the single bit `i`; the same holds for every event buffered in a
state reachable from a cleared handle. The long flag is bit 31, which no
button bit of a button below 3 touches. -/
theorem event_encoding (lv : Levels) (s r : pb_t) (hr : Reachable r) :
    (∀ p ∈ (pb_tim_cb_log lv s).2, p.1 < PB_CONFIG_COUNT ∧
      p.2 &&& 0x7FFFFFFF = 2 ^ p.1 ∧
      (∀ k, (p.2 &&& 0x7FFFFFFF).testBit k = decide (p.1 = k))) ∧
    (∀ e ∈ content r, ∃ i, i < PB_CONFIG_COUNT ∧ e &&& 0x7FFFFFFF = 2 ^ i ∧
      (∀ k, (e &&& 0x7FFFFFFF).testBit k = decide (i = k))) ∧
    PB_EVN_LONG_MASK = 2 ^ 31 ∧ PB_EVN_LONG_MASK ^^^ 0xFFFFFFFF = 0x7FFFFFFF ∧
    (∀ i, i < PB_CONFIG_COUNT → 2 ^ i &&& PB_EVN_LONG_MASK = 0) := by
  have hmask : ∀ (i : Nat) (e : pb_evn_t), i < PB_CONFIG_COUNT →
      (e = 1 <<< i ∨ e = (1 <<< i) ||| PB_EVN_LONG_MASK) → e &&& 0x7FFFFFFF = 2 ^ i := by
    intro i e hi he
    rcases he with he | he
    · rw [he]; exact (evn_mask i hi).1
    · rw [he]; exact (evn_mask i hi).2.1
  refine ⟨?_, ?_, by decide, by decide, fun i hi => (evn_mask i hi).2.2⟩
  · intro p hp
    rw [pb_tim_cb_log_snd] at hp
    obtain ⟨hlt, hev⟩ := tick_offers_shape lv s.cnt p hp
    have hm := hmask p.1 p.2 hlt hev
    refine ⟨hlt, hm, fun k => ?_⟩
    rw [hm, Nat.testBit_two_pow]
  · intro e he
    obtain ⟨i, hlt, hev⟩ := (reachable_events r hr).2 e he
    have hm := hmask i e hlt hev
    refine ⟨i, hlt, hm, fun k => ?_⟩
    rw [hm, Nat.testBit_two_pow]

/-- C12, witness: the state after a long press of button 2, and a tick that
releases every button with all counters at 100. -/
theorem event_encoding_witness :
    Reachable (pb_ticks (pb_clear pb_zero) (press_release 2 120)) ∧
    (∀ p ∈ (pb_tim_cb_log all_released { pb_zero with cnt := fun _ => 100 }).2,
      p.1 < PB_CONFIG_COUNT ∧ p.2 &&& 0x7FFFFFFF = 2 ^ p.1 ∧
      (∀ k, (p.2 &&& 0x7FFFFFFF).testBit k = decide (p.1 = k))) ∧
    (∀ e ∈ content (pb_ticks (pb_clear pb_zero) (press_release 2 120)),
      ∃ i, i < PB_CONFIG_COUNT ∧ e &&& 0x7FFFFFFF = 2 ^ i ∧
      (∀ k, (e &&& 0x7FFFFFFF).testBit k = decide (i = k))) :=
  have h := event_encoding all_released { pb_zero with cnt := fun _ => 100 }
    (pb_ticks (pb_clear pb_zero) (press_release 2 120))
    (reachable_ticks _ _ (Reachable.clear pb_zero))
  ⟨reachable_ticks _ _ (Reachable.clear pb_zero), h.1, h.2.1⟩

/-- C13: clear is a full, idempotent reset. For every handle `s`, `pb_clear s`
has head 0, tail 0, every slot 0, every counter 0 and the callback of `s`; it
depends on `s` through the callback only, equals what `pb_init` establishes
with that callback from any earlier handle, and clearing twice is clearing
once. So after `pb_clear s` every sequence of ticks and `pb_loop` calls returns
the same values, makes the same callback calls and reaches the same state as
after a fresh initialisation. -/
theorem clear_is_reset (s s1 : pb_t) (ops : List Op) :
    (pb_clear s).evn_head = 0 ∧ (pb_clear s).evn_tail = 0 ∧
    (∀ k, (pb_clear s).evn k = 0) ∧ (∀ i, (pb_clear s).cnt i = 0) ∧
    (pb_clear s).callback = s.callback ∧
    pb_clear s = pb_clear { s1 with callback := s.callback } ∧
    pb_clear s = pb_init s.callback s1 ∧
    pb_clear (pb_clear s) = pb_clear s ∧
    run_out (pb_clear s) ops = run_out (pb_init s.callback s1) ops ∧
    run_state (pb_clear s) ops = run_state (pb_init s.callback s1) ops := by
  have h : pb_clear s = pb_init s.callback s1 := rfl
  refine ⟨rfl, rfl, fun _ => rfl, fun _ => rfl, rfl, rfl, h, rfl, ?_, ?_⟩
  · rw [h]
  · rw [h]

/-- C14, as stated, fails: `pb_init` reads no timing setting and has no
failing path. In a build whose short threshold, 10 ticks, is above the long
one, 5 ticks, it yields the cleared handle with the callback stored, ticks
then run on it, and a hold of 6 ticks is reported as a long press. In a build
with a zero interval it yields the same handle, ticks with every button held
run on it, and the division by zero comes only with the first released
reading, in `pb_tim_cb`. -/
theorem init_accepts_invalid_timing :
    timing_inverted.short_time_ms / timing_inverted.interval_ms >
      timing_inverted.long_time_ms / timing_inverted.interval_ms ∧
    timing_zero_interval.interval_ms = 0 ∧
    (pb_init 1 pb_zero).callback = 1 ∧ content (pb_init 1 pb_zero) = [] ∧
    (pb_ticks_with timing_inverted (pb_init 1 pb_zero) (press_release 0 6)).map Prod.snd =
      some [(0, 0x80000001)] ∧
    (pb_ticks_with timing_inverted (pb_init 1 pb_zero) (press_release 0 6)).map
      (fun r => content r.1) = some [0x80000001] ∧
    (pb_ticks_with timing_zero_interval (pb_init 1 pb_zero)
      (List.replicate 6 (fun _ => false))).map Prod.snd = some [] ∧
    (pb_tim_cb_with timing_zero_interval all_released (pb_init 1 pb_zero)).isSome = false := by
  refine ⟨?_, ?_, ?_, ?_, ?_, ?_, ?_, ?_⟩ <;> decide

/-- C14, amended: `pb_init` makes no check of the timing settings. Whatever
they are it stores the callback and clears the handle, and in every build with
a non-zero interval, whatever the order of the two thresholds, every sequence
of ticks then runs on that handle and keeps its queue indices inside the
buffer. -/
theorem init_makes_no_check (t : pb_timing) (callback : Nat) (s : pb_t) (lvs : List Levels)
    (ht : t.interval_ms ≠ 0) :
    pb_init callback s = pb_clear { s with callback := callback } ∧
    (pb_init callback s).callback = callback ∧
    content (pb_init callback s) = [] ∧
    (∃ r, pb_ticks_with t (pb_init callback s) lvs = some r ∧ wf r.1) := by
  refine ⟨rfl, rfl, content_clear _, ?_⟩
  exact pb_ticks_with_some t ht lvs (pb_init callback s) (wf_clear _)

/-- C14, witness: the build with the short threshold above the long one, and a
hold of 6 ticks on button 0. -/
theorem init_makes_no_check_witness :
    timing_inverted.interval_ms ≠ 0 ∧
    timing_inverted.short_time_ms / timing_inverted.interval_ms >
      timing_inverted.long_time_ms / timing_inverted.interval_ms ∧
    (∃ r, pb_ticks_with timing_inverted (pb_init 1 pb_zero) (press_release 0 6) = some r ∧
      wf r.1) :=
  ⟨by decide, by decide,
    (init_makes_no_check timing_inverted 1 pb_zero (press_release 0 6) (by decide)).2.2.2⟩

/-- C15: index invariant and in-bounds access. In every state reachable from a
cleared handle by ticks with arbitrary levels, `pb_evn_add` calls and `pb_loop`
calls, and in every state the scan loop of a tick passes through from there,
`head < 4` and `tail < 4`. So the read `evn[tail]` of `pb_loop` and the write
`evn[head]` of `pb_evn_add` address a cell of the 4-slot buffer, and the scan
loop indexes `cnt` with `i < 3` only. -/
theorem index_invariant (s : pb_t) (lv : Levels) (n : Nat) (hr : ReachableQ s) :
    s.evn_head < PB_EVN_QUEUE_SIZE ∧ s.evn_tail < PB_EVN_QUEUE_SIZE ∧
    wf ((List.range n).foldl (pb_tim_cb_step lv) (s, [])).1 ∧
    (∃ h : s.evn_tail < PB_EVN_QUEUE_SIZE, arr_get s.evn s.evn_tail = s.evn ⟨s.evn_tail, h⟩) ∧
    (∃ h : s.evn_head < PB_EVN_QUEUE_SIZE, ∀ e,
      arr_set s.evn s.evn_head e = Function.update s.evn ⟨s.evn_head, h⟩ e) ∧
    (∀ i ∈ List.range PB_CONFIG_COUNT, i < PB_KEY_COUNT) := by
  have hw := wf_reachableQ s hr
  refine ⟨hw.1, hw.2, wf_scan lv _ (s, []) hw, ⟨hw.2, arr_get_cell _ _ hw.2⟩,
    ⟨hw.1, fun e => arr_set_update _ _ e hw.1⟩, ?_⟩
  intro i hi
  exact List.mem_range.mp hi

/-- C15, witness: the state after three pushes, a tick and a `pb_loop` call. -/
theorem index_invariant_witness :
    ReachableQ (pb_loop (pb_tim_cb all_released
      (pb_evn_add (pb_evn_add (pb_evn_add (pb_clear pb_zero) 1) 2) 4))).state ∧
    (pb_loop (pb_tim_cb all_released
      (pb_evn_add (pb_evn_add (pb_evn_add (pb_clear pb_zero) 1) 2) 4))).state.evn_head
        < PB_EVN_QUEUE_SIZE ∧
    (pb_loop (pb_tim_cb all_released
      (pb_evn_add (pb_evn_add (pb_evn_add (pb_clear pb_zero) 1) 2) 4))).state.evn_tail
        < PB_EVN_QUEUE_SIZE :=
  have hr : ReachableQ (pb_loop (pb_tim_cb all_released
      (pb_evn_add (pb_evn_add (pb_evn_add (pb_clear pb_zero) 1) 2) 4))).state :=
    ReachableQ.loop _ (ReachableQ.tick _ _ (ReachableQ.add _ _ (ReachableQ.add _ _
      (ReachableQ.add _ _ (ReachableQ.clear pb_zero)))))
  have h := index_invariant _ all_released 3 hr
  ⟨hr, h.1, h.2.1⟩

/-- C16: producer and consumer ownership as frame conditions. A tick leaves
`tail` and the callback as they were, in every state; with `head < 4` and
`tail < 4` it also leaves every buffered slot, those at `(tail + k) % 4` for
`k` below the number of buffered events, as it was, so the old content is an
initial segment of the new one. `pb_loop` leaves `head`, the counters, the
buffer and the callback as they were, in every state, and leaves `tail` alone
or moves it to `(tail + 1) % 4`. -/
theorem frame_conditions (lv : Levels) (s : pb_t) :
    (pb_tim_cb lv s).evn_tail = s.evn_tail ∧
    (pb_tim_cb lv s).callback = s.callback ∧
    (wf s → ∀ k, k < (content s).length →
      arr_get (pb_tim_cb lv s).evn ((s.evn_tail + k) % PB_EVN_QUEUE_SIZE) =
        arr_get s.evn ((s.evn_tail + k) % PB_EVN_QUEUE_SIZE)) ∧
    (wf s → (content (pb_tim_cb lv s)).take (content s).length = content s) ∧
    (pb_loop s).state.evn_head = s.evn_head ∧
    (pb_loop s).state.cnt = s.cnt ∧
    (pb_loop s).state.evn = s.evn ∧
    (pb_loop s).state.callback = s.callback ∧
    ((pb_loop s).state.evn_tail = s.evn_tail ∨
      (pb_loop s).state.evn_tail = (s.evn_tail + 1) % PB_EVN_QUEUE_SIZE) := by
  have hl : (pb_loop s).state.evn_head = s.evn_head ∧ (pb_loop s).state.cnt = s.cnt ∧
      (pb_loop s).state.evn = s.evn ∧ (pb_loop s).state.callback = s.callback ∧
      ((pb_loop s).state.evn_tail = s.evn_tail ∨
        (pb_loop s).state.evn_tail = (s.evn_tail + 1) % PB_EVN_QUEUE_SIZE) := by
    have hm : (s.evn_tail + 1) % 4294967296 % PB_EVN_QUEUE_SIZE =
        (s.evn_tail + 1) % PB_EVN_QUEUE_SIZE := by
      simp only [PB_EVN_QUEUE_SIZE]
      omega
    unfold pb_loop
    dsimp only
    split
    · split <;> exact ⟨rfl, rfl, rfl, rfl, Or.inr hm⟩
    · exact ⟨rfl, rfl, rfl, rfl, Or.inl rfl⟩
  refine ⟨?_, ?_, ?_, ?_, hl⟩
  · rw [pb_tim_cb_eq]
    exact push_all_tail s _
  · rw [pb_tim_cb_eq]
    exact push_all_callback s _
  · intro hw k hk
    rw [content_length_eq] at hk
    rw [pb_tim_cb_eq]
    exact push_all_slot _ s hw k hk
  · intro hw
    rw [content_tim_cb lv s hw, List.take_take,
      Nat.min_eq_left (content_length_le s), List.take_left']
    rfl

/-- C16, witness: a tick that releases every button with all counters at 100,
on a queue holding one event at slot 1. -/
theorem frame_conditions_witness :
    wf { pb_zero with cnt := fun _ => 100, evn := fun _ => 9, evn_head := 2, evn_tail := 1 } ∧
    (content (pb_tim_cb all_released
      { pb_zero with cnt := fun _ => 100, evn := fun _ => 9, evn_head := 2, evn_tail := 1 })).take
        (content ({ pb_zero with cnt := fun _ => 100, evn := fun _ => 9, evn_head := 2,
                                 evn_tail := 1 } : pb_t)).length =
      content ({ pb_zero with cnt := fun _ => 100, evn := fun _ => 9, evn_head := 2,
                              evn_tail := 1 } : pb_t) ∧
    content (pb_tim_cb all_released
      { pb_zero with cnt := fun _ => 100, evn := fun _ => 9, evn_head := 2, evn_tail := 1 }) =
      [9, 0x80000001, 0x80000002] :=
  have h := frame_conditions all_released
    { pb_zero with cnt := fun _ => 100, evn := fun _ => 9, evn_head := 2, evn_tail := 1 }
  ⟨by decide, h.2.2.2.1 (by decide), by decide⟩

/-- C17: per-button independence. Take two runs of the driver, each any
interleaving of ticks and `pb_loop` calls, whose tick sequences have the same
length and read the same level for button `i < 3` on every tick. From cleared
handles, and more generally from any two states with the same counter `i`,
the two runs give button `i` the same counter after every tick and offer the
same events for it on the same ticks, whatever the other buttons read and
however full the queues are. -/
theorem button_independence (i : Nat) (hi : i < PB_CONFIG_COUNT) (s1 s2 : pb_t)
    (ops1 ops2 : List Op) (hlen : (ticks_of ops1).length = (ticks_of ops2).length)
    (hagree : ∀ (k : Nat) (lv1 lv2 : Levels), (ticks_of ops1)[k]? = some lv1 → (ticks_of ops2)[k]? = some lv2 →
      lv1 i = lv2 i) :
    run_trace i (pb_clear s1) ops1 = run_trace i (pb_clear s2) ops2 ∧
    (∀ t1 t2 : pb_t, arr_get t1.cnt i = arr_get t2.cnt i →
      run_trace i t1 ops1 = run_trace i t2 ops2) := by
  have hr := readings_eq i _ _ hlen hagree
  have hgen : ∀ t1 t2 : pb_t, arr_get t1.cnt i = arr_get t2.cnt i →
      run_trace i t1 ops1 = run_trace i t2 ops2 := by
    intro t1 t2 hc
    rw [run_trace_eq i hi ops1 t1, run_trace_eq i hi ops2 t2, hc, hr]
  refine ⟨hgen _ _ ?_, hgen⟩
  unfold arr_get
  split <;> rfl

/-- C17, witness: button 0 held 6 ticks and released, once alone with no
`pb_loop` call, once while button 1 is held as well and `pb_loop` is called
in between, on a handle that starts with a callback. -/
theorem button_independence_witness :
    0 < PB_CONFIG_COUNT ∧
    run_trace 0 (pb_clear pb_zero)
        ((List.replicate 6 (Op.tick (only_pressed 0))) ++ [Op.tick all_released]) =
      run_trace 0 (pb_clear { pb_zero with callback := 1 })
        ((List.replicate 6 (Op.tick (fun j => decide (2 ≤ j)))) ++
          [Op.loop, Op.tick all_released, Op.loop]) :=
  have h := button_independence 0 (by decide) pb_zero { pb_zero with callback := 1 }
    ((List.replicate 6 (Op.tick (only_pressed 0))) ++ [Op.tick all_released])
    ((List.replicate 6 (Op.tick (fun j => decide (2 ≤ j)))) ++
      [Op.loop, Op.tick all_released, Op.loop])
    (by decide) (by
      intro k lv1 lv2 h1 h2
      have hk : k < 7 := by
        obtain ⟨b, -⟩ := List.getElem?_eq_some_iff.mp h1
        exact b
      interval_cases k <;>
        · simp [ticks_of, List.replicate] at h1 h2
          subst h1
          subst h2
          rfl)
  ⟨by decide, h.1⟩

set_option maxRecDepth 16384 in
/-- C18, as stated, fails for buttons 1 and 2 when button 0 is released on the
same tick: after two short presses of button 2 and 5 ticks with all three
buttons held, two events are buffered and every counter is 5; the tick that
releases every button offers the events of buttons 0, 1, 2 in that order, the
one free slot goes to button 0, and the event of button 1 is not accepted. -/
theorem same_tick_release_slot_goes_to_lowest :
    Reachable one_slot_left ∧ content one_slot_left = [4, 4] ∧
    all_released 1 = true ∧ all_released 2 = true ∧
    PB_SHORT_TIME_MS / PB_INTERVAL_MS ≤ arr_get one_slot_left.cnt 1 ∧
    PB_SHORT_TIME_MS / PB_INTERVAL_MS ≤ arr_get one_slot_left.cnt 2 ∧
    (pb_tim_cb_log all_released one_slot_left).2 = [(0, 1), (1, 2), (2, 4)] ∧
    content (pb_tim_cb all_released one_slot_left) = [4, 4, 1] ∧
    content (pb_tim_cb all_released one_slot_left) ≠ content one_slot_left ++ [1 <<< 1] ∧
    1 <<< 1 ∉ content (pb_tim_cb all_released one_slot_left) := by
  refine ⟨reachable_ticks _ _ (Reachable.clear pb_zero), ?_, rfl, rfl, ?_, ?_, ?_, ?_, ?_, ?_⟩ <;>
    decide

/-- C18, amended: same-tick releases are enqueued in ascending button index.
When buttons `i < j < 3` both read released on one tick with both counters at
least 5, the tick offers the event of `i` before the event of `j`, resets both
counters to 0, and with `head < 4` and `tail < 4` the new content is the first
three of the old content followed by the offers in that order. If exactly two
events are buffered and no button below `i` offers an event on that tick
(each reads pressed or has a counter below 5), the event of `i` takes the free
slot and the event of `j` is dropped. -/
theorem same_tick_release_order (lv : Levels) (s : pb_t) (i j : Nat) (hij : i < j)
    (hj : j < PB_CONFIG_COUNT) (hli : lv i = true) (hlj : lv j = true)
    (hci : PB_SHORT_TIME_MS / PB_INTERVAL_MS ≤ arr_get s.cnt i)
    (hcj : PB_SHORT_TIME_MS / PB_INTERVAL_MS ≤ arr_get s.cnt j) :
    (pb_tim_cb_log lv s).2.filter (fun p => decide (p.1 = i ∨ p.1 = j)) =
      [(i, release_evn (arr_get s.cnt i) i), (j, release_evn (arr_get s.cnt j) j)] ∧
    arr_get (pb_tim_cb lv s).cnt i = 0 ∧ arr_get (pb_tim_cb lv s).cnt j = 0 ∧
    (wf s → content (pb_tim_cb lv s) =
      (content s ++ ((pb_tim_cb_log lv s).2).map Prod.snd).take 3) ∧
    (wf s → (content s).length = 2 →
      (∀ k, k < i → lv k = false ∨ arr_get s.cnt k < PB_SHORT_TIME_MS / PB_INTERVAL_MS) →
      content (pb_tim_cb lv s) = content s ++ [release_evn (arr_get s.cnt i) i]) := by
  have hi : i < PB_CONFIG_COUNT := Nat.lt_trans hij hj
  have oi := offer_release_evn lv s.cnt i hli hci
  have oj := offer_release_evn lv s.cnt j hlj hcj
  refine ⟨?_, ?_, ?_, fun hw => content_tim_cb lv s hw, ?_⟩
  · rw [pb_tim_cb_log_snd]
    unfold tick_offers
    simp only [List.filter_append, filter_offer_pair]
    simp only [PB_CONFIG_COUNT] at hj
    interval_cases j <;> interval_cases i <;> simp [oi, oj]
  · rw [cnt_tim_cb lv s i hi, if_pos hli]
  · rw [cnt_tim_cb lv s j hj, if_pos hlj]
  · intro hw hlen hlow
    have hlog : ∃ rest, tick_offers lv s.cnt =
        (i, release_evn (arr_get s.cnt i) i) :: rest := by
      unfold tick_offers
      simp only [PB_CONFIG_COUNT] at hj
      interval_cases j <;> interval_cases i
      · exact ⟨_, by rw [oi]; rfl⟩
      · exact ⟨_, by rw [oi]; rfl⟩
      · exact ⟨_, by rw [offer_nothing lv s.cnt 0 (hlow 0 (by decide)), oi]; rfl⟩
    obtain ⟨rest, hrest⟩ := hlog
    rw [content_tim_cb lv s hw, pb_tim_cb_log_snd, hrest, List.map_cons,
      List.take_append_eq_append_take, hlen,
      List.take_of_length_le (Nat.le_of_eq hlen |>.trans (by decide))]
    rfl

/-- C18, witness: buttons 0 and 2 released on one tick with counters 5 and
100, button 1 still held, on a queue holding two events. -/
theorem same_tick_release_order_witness :
    0 < 2 ∧ 2 < PB_CONFIG_COUNT ∧
    (pb_tim_cb_log (fun j => decide (j ≠ 1))
      { pb_zero with cnt := arr_set (arr_set (fun _ => 7) 0 5) 2 100,
                     evn := fun _ => 4, evn_head := 3, evn_tail := 1 }).2.filter
        (fun p => decide (p.1 = 0 ∨ p.1 = 2)) = [(0, 1), (2, 0x80000004)] ∧
    content (pb_tim_cb (fun j => decide (j ≠ 1))
      { pb_zero with cnt := arr_set (arr_set (fun _ => 7) 0 5) 2 100,
                     evn := fun _ => 4, evn_head := 3, evn_tail := 1 }) = [4, 4, 1] :=
  have h := same_tick_release_order (fun j => decide (j ≠ 1))
    { pb_zero with cnt := arr_set (arr_set (fun _ => 7) 0 5) 2 100,
                   evn := fun _ => 4, evn_head := 3, evn_tail := 1 }
    0 2 (by decide) (by decide) (by decide) (by decide) (by decide) (by decide)
  ⟨by decide, by decide, h.1, h.2.2.2.2 (by decide) (by decide)
    (fun k hk => absurd hk (Nat.not_lt_zero k))⟩

end PB
